import Mathlib

/-!
Verification of the PR pairing tool's reviewer selection and assignment engine.

The definitions below are a shallow embedding of `pr_pairing/pairing.py`,
`pr_pairing/models.py` and `pr_pairing/requirements.py`: Python dicts become
association lists keyed by strings (`alGet`/`alSet` mirror `d[k]` semantics:
lookup by key, update in place, insert at the end), Python sets become lists
queried only through membership, Python `sorted` (a stable sort by key)
becomes the stable sort `stableSort` with the corresponding lexicographic
comparator (for a total preorder a stable sort is unique),
and the bucket-mode `while` loop with its iteration budget becomes a
fuel-indexed recursion whose fuel is exactly the budget.
-/

namespace PrPairing

/-- Lookup in a Python-style dict modelled as an association list
(first matching key wins; a well-formed dict has unique keys). -/
def alGet {α : Type} (m : List (String × α)) (k : String) : Option α :=
  match m with
  | [] => none
  | (k2, v) :: rest => if k2 = k then some v else alGet rest k

/-- `d[k] = v` on a Python-style dict: replace the value at an existing key in
place, otherwise append the new binding at the end (insertion order). -/
def alSet {α : Type} (m : List (String × α)) (k : String) (v : α) : List (String × α) :=
  match m with
  | [] => [(k, v)]
  | (k2, v2) :: rest => if k2 = k then (k, v) :: rest else (k2, v2) :: alSet rest k v

/-- `k in d` on a Python-style dict. -/
def alMem {α : Type} (m : List (String × α)) (k : String) : Bool :=
  (alGet m k).isSome

/-- Insert x into a sorted list, before the first element y with le x y:
combined with stableSort this yields the unique stable ascending order, the
one produced by Python sorted. -/
def insertLe {α : Type} (le : α → α → Bool) (x : α) : List α → List α
  | [] => [x]
  | y :: ys => if le x y then x :: y :: ys else y :: insertLe le x ys

/-- Stable sort by a total Bool comparator (structural recursion, so proofs
can evaluate it); for a total preorder its output coincides with any stable
sort, in particular with Python sorted on the same key. -/
def stableSort {α : Type} (le : α → α → Bool) : List α → List α
  | [] => []
  | x :: xs => insertLe le x (stableSort le xs)

/-- models.py: DEFAULT_KNOWLEDGE_LEVEL -/
def DEFAULT_KNOWLEDGE_LEVEL : Int := 3

/-- models.py: EXPERT_MIN_LEVEL -/
def EXPERT_MIN_LEVEL : Int := 4

/-- models.py: NOVICE_MAX_LEVEL -/
def NOVICE_MAX_LEVEL : Int := 2

/-- models.py: KnowledgeMode enum. -/
inductive KnowledgeMode : Type
  | anyone
  | expertsOnly
  | mentorship
  | similarLevels
deriving DecidableEq, Repr

/-- models.py: the Developer dataclass (the `metadata` field is I/O-only and
plays no part in the engine, so it is omitted). -/
structure Developer where
  name : String
  can_review : Bool
  team : String := ""
  knowledge_level : Int := DEFAULT_KNOWLEDGE_LEVEL
  reviewers : List String := []
deriving DecidableEq, Repr

/-- models.py: the History dataclass; `pairs` is dict dev-name -> dict
reviewer-name -> count. -/
structure History where
  pairs : List (String × List (String × Nat)) := []
  last_run : Option String := none
deriving DecidableEq, Repr

/-- pairing.py is_same_team: `bool(dev_team and candidate.team == dev_team)`. -/
def is_same_team (candidate : Developer) (dev_team : String) : Bool :=
  dev_team ≠ "" && candidate.team == dev_team

/-- pairing.py is_expert. -/
def is_expert (developer : Developer) : Bool :=
  developer.knowledge_level ≥ EXPERT_MIN_LEVEL

/-- pairing.py is_novice. -/
def is_novice (developer : Developer) : Bool :=
  developer.knowledge_level ≤ NOVICE_MAX_LEVEL

/-- pairing.py is_valid_knowledge_pair. -/
def is_valid_knowledge_pair (dev : Developer) (reviewer : Developer)
    (knowledge_mode : KnowledgeMode) : Bool :=
  match knowledge_mode with
  | .anyone => true
  | .expertsOnly => is_expert reviewer
  | .mentorship => if is_novice dev then is_expert reviewer else true
  | .similarLevels => true

/-- pairing.py get_knowledge_diff. -/
def get_knowledge_diff (dev : Developer) (reviewer : Developer)
    (knowledge_mode : KnowledgeMode) : Int :=
  if knowledge_mode = .similarLevels then
    |reviewer.knowledge_level - dev.knowledge_level|
  else 0

/-- pairing.py get_knowledge_filter: the per-mode candidate predicate used by
select_reviewers (the dispatch default accepts everyone). -/
def get_knowledge_filter (knowledge_mode : KnowledgeMode) (dev : Developer)
    (candidate : Developer) : Bool :=
  match knowledge_mode with
  | .expertsOnly => is_expert candidate
  | .mentorship => if is_novice dev then is_expert candidate else true
  | .similarLevels => true
  | .anyone => true

/-- pairing.py get_pair_count: `history.pairs.get(dev, {}).get(reviewer, 0)`. -/
def get_pair_count (history : History) (dev_name : String) (reviewer_name : String) : Nat :=
  match alGet history.pairs dev_name with
  | none => 0
  | some inner => (alGet inner reviewer_name).getD 0

/-- pairing.py get_total_reviews_assigned. -/
def get_total_reviews_assigned (history : History) (reviewer_name : String) : Nat :=
  (history.pairs.map (fun p => (alGet p.snd reviewer_name).getD 0)).sum

/-- pairing.py update_history: ensure the dev key exists, then bump each
reviewer's count by one (a reviewer occurring twice is bumped twice). -/
def update_history (history : History) (dev_name : String) (reviewers : List String) :
    History :=
  let pairs0 := if alMem history.pairs dev_name then history.pairs
                else alSet history.pairs dev_name []
  let pairs1 := reviewers.foldl (fun ps reviewer =>
    let inner := (alGet ps dev_name).getD []
    alSet ps dev_name (alSet inner reviewer ((alGet inner reviewer).getD 0 + 1))) pairs0
  { history with pairs := pairs1 }

/-- pairing.py generate_team_warnings (per-developer mode). -/
def generate_team_warnings (dev : Developer) (sorted_candidates : List Developer)
    (num_reviewers : Nat) : List String :=
  let same_team_count := (sorted_candidates.take num_reviewers).countP
    (fun c => is_same_team c dev.team)
  let available_same_team := sorted_candidates.countP (fun c => is_same_team c dev.team)
  if same_team_count < num_reviewers ∧ available_same_team > 0 then
    [dev.name ++ ": Only " ++ toString same_team_count ++ "/" ++ toString num_reviewers ++
      " reviewers from same team"]
  else if available_same_team = 0 ∧ num_reviewers > 0 ∧ dev.team ≠ "" then
    [dev.name ++ ": No reviewers available in team \x27" ++ dev.team ++
      "\x27, used other teams"]
  else []

/-- pairing.py build_sort_key, balance branch: the 4-tuple
(current_load, team_factor, knowledge_factor, pair_count). -/
def sort_key_balance (history : History) (dev : Developer)
    (current_assignments : String → Nat) (team_mode : Bool)
    (knowledge_mode : KnowledgeMode) (candidate : Developer) :
    Nat × Nat × Int × Nat :=
  let pair_count := get_pair_count history dev.name candidate.name
  let current_load := current_assignments candidate.name
  let team_factor : Nat :=
    if team_mode ∧ dev.team ≠ "" then (if is_same_team candidate dev.team then 0 else 1)
    else 0
  let knowledge_factor : Int :=
    if knowledge_mode = .mentorship then
      (if is_novice dev then -candidate.knowledge_level else 0)
    else if knowledge_mode = .similarLevels then
      |candidate.knowledge_level - dev.knowledge_level|
    else 0
  (current_load, team_factor, knowledge_factor, pair_count)

/-- Lexicographic comparison of the 4-component sort key
(total preorder, so a stable sort by it matches Python sorted). -/
def key4Le (a b : Nat × Nat × Int × Nat) : Bool :=
  a.1 < b.1 ∨ (a.1 = b.1 ∧ (a.2.1 < b.2.1 ∨ (a.2.1 = b.2.1 ∧
    (a.2.2.1 < b.2.2.1 ∨ (a.2.2.1 = b.2.2.1 ∧ a.2.2.2 ≤ b.2.2.2)))))

/-- Comparator for the non-balance branch of build_sort_key: the 3-tuple
(team_factor, knowledge_factor, pair_count) is the balance key with the
load component dropped. -/
def key3Le (a b : Nat × Int × Nat) : Bool :=
  a.1 < b.1 ∨ (a.1 = b.1 ∧ (a.2.1 < b.2.1 ∨ (a.2.1 = b.2.1 ∧ a.2.2 ≤ b.2.2)))

/-- Stable-sort comparator corresponding to build_sort_key with
balance_mode selecting the 4- or 3-component key. -/
def sort_key_le (history : History) (dev : Developer)
    (current_assignments : String → Nat) (team_mode : Bool)
    (knowledge_mode : KnowledgeMode) (balance_mode : Bool)
    (a b : Developer) : Bool :=
  let ka := sort_key_balance history dev current_assignments team_mode knowledge_mode a
  let kb := sort_key_balance history dev current_assignments team_mode knowledge_mode b
  if balance_mode then key4Le ka kb
  else key3Le (ka.2.1, ka.2.2.1, ka.2.2.2) (kb.2.1, kb.2.2.1, kb.2.2.2)

/-- The dict comprehension `{d.name: d for d in l}`: a later duplicate name
wins, as in Python. -/
def by_name (l : List Developer) : List (String × Developer) :=
  l.foldl (fun m d => alSet m d.name d) []

/-- pairing.py get_available_reviewers: (reviewers, reviewers_by_name,
developers_by_name). -/
def get_available_reviewers (developers : List Developer) :
    List Developer × List (String × Developer) × List (String × Developer) :=
  let reviewers := developers.filter (fun d => d.can_review)
  (reviewers, by_name reviewers, by_name developers)

/-- State threaded through the inner requirement-validation loop:
(assigned so far, required_reviewers_used so far, warnings so far).
required_reviewers_used is a Python set, modelled as a duplicate-free list. -/
def reqStep (dev_name : String) (reviewers_by_name : List (String × Developer))
    (dev : Developer) (exclusions : List (String × String))
    (knowledge_mode : KnowledgeMode)
    (st : List String × List String × List String) (reviewer_name : String) :
    List String × List String × List String :=
  let (assigned, used, warns) := st
  match alGet reviewers_by_name reviewer_name with
  | none =>
    (assigned, used, warns ++ ["Cannot fulfill requirement: \x27" ++ dev_name ++ ":" ++
      reviewer_name ++ "\x27 - " ++ reviewer_name ++
      " cannot review (can_review=false or not found)"])
  | some reviewer =>
    if reviewer_name = dev_name then
      (assigned, used, warns ++ ["Skipping self-requirement: " ++ dev_name ++ ":" ++
        reviewer_name])
    else if (dev_name, reviewer_name) ∈ exclusions then
      (assigned, used, warns)
    else if ¬ is_valid_knowledge_pair dev reviewer knowledge_mode then
      (assigned, used, warns ++ ["Cannot fulfill requirement: \x27" ++ dev_name ++ ":" ++
        reviewer_name ++ "\x27 - knowledge mode constraint not met"])
    else
      (assigned ++ [reviewer_name],
       (if reviewer_name ∈ used then used else used ++ [reviewer_name]),
       warns)

/-- One iteration of the outer requirement-validation loop (one dict entry of
the requirement map). -/
def vaprStep (developers_by_name reviewers_by_name : List (String × Developer))
    (exclusions : List (String × String)) (knowledge_mode : KnowledgeMode)
    (acc : List (String × List String) × List String × List String)
    (entry : String × List String) :
    List (String × List String) × List String × List String :=
  let (ra, used, warns) := acc
  let dev_name := entry.fst
  match alGet developers_by_name dev_name with
  | none => (ra, used, warns ++ ["Requirement for unknown developer: " ++ dev_name])
  | some dev =>
    let inner := entry.snd.foldl
      (reqStep dev_name reviewers_by_name dev exclusions knowledge_mode)
      ([], used, warns)
    (alSet ra dev_name inner.1, inner.2.1, inner.2.2)

/-- pairing.py validate_and_process_requirements: returns
(required_assignments, required_reviewers_used, warnings). -/
def validate_and_process_requirements (requirements : List (String × List String))
    (developers_by_name reviewers_by_name : List (String × Developer))
    (exclusions : List (String × String)) (knowledge_mode : KnowledgeMode) :
    List (String × List String) × List String × List String :=
  requirements.foldl
    (vaprStep developers_by_name reviewers_by_name exclusions knowledge_mode)
    ([], [], [])

/-- select_reviewers stage 1: drop the developer itself from the pool. -/
def sel_candidates1 (dev : Developer) (candidates : List Developer) :
    List Developer :=
  candidates.filter (fun c => c.name ≠ dev.name)

/-- select_reviewers: the set of reviewer names excluded for this developer. -/
def sel_excluded_reviewers (dev : Developer)
    (exclusions : List (String × String)) : List String :=
  (exclusions.filter (fun p => p.fst = dev.name)).map (fun p => p.snd)

/-- select_reviewers stage 2: drop excluded reviewers (only when the excluded
set is non-empty, as in the source). -/
def sel_candidates2 (dev : Developer) (candidates : List Developer)
    (exclusions : List (String × String)) : List Developer :=
  if ¬ (sel_excluded_reviewers dev exclusions).isEmpty then
    (sel_candidates1 dev candidates).filter
      (fun c => c.name ∉ sel_excluded_reviewers dev exclusions)
  else sel_candidates1 dev candidates

/-- select_reviewers stage 3: drop reviewers already required for this
developer (raw requirement names, only when non-empty). -/
def sel_candidates3 (dev : Developer) (candidates : List Developer)
    (exclusions : List (String × String))
    (requirements : List (String × List String)) : List Developer :=
  if ¬ ((alGet requirements dev.name).getD []).isEmpty then
    (sel_candidates2 dev candidates exclusions).filter
      (fun c => c.name ∉ (alGet requirements dev.name).getD [])
  else sel_candidates2 dev candidates exclusions

/-- select_reviewers stage 4: apply the knowledge-mode filter (skipped under
anyone). -/
def sel_filtered (dev : Developer) (candidates : List Developer)
    (exclusions : List (String × String))
    (requirements : List (String × List String))
    (knowledge_mode : KnowledgeMode) : List Developer :=
  if knowledge_mode ≠ .anyone then
    (sel_candidates3 dev candidates exclusions requirements).filter
      (get_knowledge_filter knowledge_mode dev)
  else sel_candidates3 dev candidates exclusions requirements

/-- select_reviewers stage 5: stable sort of the surviving candidates by
build_sort_key. -/
def sel_sorted (dev : Developer) (candidates : List Developer)
    (history : History) (current_assignments : String → Nat) (team_mode : Bool)
    (knowledge_mode : KnowledgeMode) (exclusions : List (String × String))
    (requirements : List (String × List String)) (balance_mode : Bool) :
    List Developer :=
  stableSort
    (sort_key_le history dev current_assignments team_mode knowledge_mode
      balance_mode)
    (sel_filtered dev candidates exclusions requirements knowledge_mode)

/-- pairing.py select_reviewers: pure candidate filtering, stable sort by
build_sort_key, and top-num_reviewers selection; returns
(selected reviewer names, warnings). -/
def select_reviewers (dev : Developer) (candidates : List Developer)
    (history : History) (num_reviewers : Nat) (team_mode : Bool)
    (current_assignments : String → Nat) (knowledge_mode : KnowledgeMode)
    (exclusions : List (String × String))
    (requirements : List (String × List String)) (balance_mode : Bool) :
    List String × List String :=
  if (sel_candidates1 dev candidates).isEmpty then
    ([], ["No reviewers available for " ++ dev.name])
  else if ¬ (sel_excluded_reviewers dev exclusions).isEmpty ∧
      (sel_candidates2 dev candidates exclusions).isEmpty then
    ([], [dev.name ++ ": All reviewers excluded, cannot assign any reviewers"])
  else if (sel_candidates3 dev candidates exclusions requirements).isEmpty then
    ([], ["No reviewers available for " ++ dev.name])
  else if knowledge_mode ≠ .anyone ∧
      (sel_filtered dev candidates exclusions requirements knowledge_mode).isEmpty
      then
    if knowledge_mode = .expertsOnly then
      ([], [dev.name ++ ": No experts (level " ++ toString EXPERT_MIN_LEVEL ++
        "-5) available for review"])
    else if knowledge_mode = .mentorship then
      ([], [dev.name ++ ": No mentors (level " ++ toString EXPERT_MIN_LEVEL ++
        "-5) available for novice developer"])
    else
      ([], [dev.name ++ ": No suitable reviewers found"])
  else
    let sorted_candidates := sel_sorted dev candidates history current_assignments
      team_mode knowledge_mode exclusions requirements balance_mode
    let selected := (sorted_candidates.take num_reviewers).map (fun c => c.name)
    let warns :=
      if team_mode ∧ dev.team ≠ "" then
        generate_team_warnings dev sorted_candidates num_reviewers
      else []
    (selected, warns)

/-- pairing.py assign_reviewers_bucket: one generated candidate pair with its
precomputed sort data (the dict literal appended to all_pairs). -/
structure PairEntry where
  dev : Developer
  reviewer : Developer
  team_match : Nat
  knowledge_diff : Int
  pair_count : Nat
deriving DecidableEq, Repr

/-- Initial bucket sort key (team_match, knowledge_diff, pair_count),
compared lexicographically. -/
def bucketLe0 (a b : PairEntry) : Bool :=
  a.team_match < b.team_match ∨ (a.team_match = b.team_match ∧
    (a.knowledge_diff < b.knowledge_diff ∨ (a.knowledge_diff = b.knowledge_diff ∧
      a.pair_count ≤ b.pair_count)))

/-- Re-sort key used after each greedy assignment:
(team_match, knowledge_diff, current_load of the reviewer, pair_count). -/
def bucketLe (current_load : String → Nat) (a b : PairEntry) : Bool :=
  a.team_match < b.team_match ∨ (a.team_match = b.team_match ∧
    (a.knowledge_diff < b.knowledge_diff ∨ (a.knowledge_diff = b.knowledge_diff ∧
      (current_load a.reviewer.name < current_load b.reviewer.name ∨
        (current_load a.reviewer.name = current_load b.reviewer.name ∧
          a.pair_count ≤ b.pair_count)))))

/-- The body of the all_pairs generation loop of assign_reviewers_bucket:
emit a PairEntry for (dev, reviewer) unless the pair is a self-pair, already
required, excluded, or knowledge-incompatible. -/
def pair_candidate (required_assignments : List (String × List String))
    (exclusions : List (String × String)) (knowledge_mode : KnowledgeMode)
    (team_mode : Bool) (history : History) (dev reviewer : Developer) :
    Option PairEntry :=
  if dev.name = reviewer.name then none
  else if reviewer.name ∈ (alGet required_assignments dev.name).getD [] then none
  else if (dev.name, reviewer.name) ∈ exclusions then none
  else if ¬ is_valid_knowledge_pair dev reviewer knowledge_mode then none
  else some
    { dev := dev
      reviewer := reviewer
      team_match :=
        if team_mode ∧ dev.team ≠ "" then
          (if is_same_team reviewer dev.team then 0 else 1)
        else 0
      knowledge_diff := get_knowledge_diff dev reviewer knowledge_mode
      pair_count := get_pair_count history dev.name reviewer.name }

/-- The all_pairs generation loop of assign_reviewers_bucket: for each dev in
roster order, for each available reviewer, the pair_candidate check. -/
def build_all_pairs (developers reviewers : List Developer)
    (required_assignments : List (String × List String))
    (exclusions : List (String × String)) (knowledge_mode : KnowledgeMode)
    (team_mode : Bool) (history : History) : List PairEntry :=
  developers.flatMap (fun dev =>
    reviewers.filterMap
      (pair_candidate required_assignments exclusions knowledge_mode team_mode
        history dev))

/-- The bucket-mode greedy `while` loop. The fuel argument is the remaining
iteration budget (`max_iterations - iteration`); each loop iteration either
discards the head pair (its developer already has its quota) or assigns it,
bumps the reviewer's load, and stably re-sorts the rest of the pool by the
load-aware key. -/
def greedy_assign (num_reviewers : Nat) : Nat → List PairEntry →
    List (String × List String) → (String → Nat) →
    List (String × List String) × (String → Nat)
  | 0, _, assigned, current_load => (assigned, current_load)
  | _ + 1, [], assigned, current_load => (assigned, current_load)
  | fuel + 1, p :: rest, assigned, current_load =>
    let cur := (alGet assigned p.dev.name).getD []
    if num_reviewers ≤ cur.length then
      greedy_assign num_reviewers fuel rest assigned current_load
    else
      let assigned2 := alSet assigned p.dev.name (cur ++ [p.reviewer.name])
      let load2 := fun n =>
        if n = p.reviewer.name then current_load n + 1 else current_load n
      greedy_assign num_reviewers fuel (stableSort (bucketLe load2) rest) assigned2 load2

/-- pairing.py generate_bucket_team_warnings. -/
def generate_bucket_team_warnings (developer : Developer)
    (reviewers : List Developer) (num_reviewers : Nat) : List String :=
  if developer.team = "" then []
  else
    let reviewer_names := developer.reviewers
    let assigned_same_team := reviewers.countP
      (fun r => r.name ∈ reviewer_names && is_same_team r developer.team)
    let available_same_team := reviewers.countP
      (fun r => r.name ≠ developer.name && is_same_team r developer.team)
    if assigned_same_team < num_reviewers ∧ available_same_team > 0 then
      [developer.name ++ ": Only " ++ toString assigned_same_team ++ "/" ++
        toString num_reviewers ++ " reviewers from same team"]
    else if available_same_team = 0 ∧ num_reviewers > 0 then
      [developer.name ++ ": No reviewers available in team \x27" ++ developer.team ++
        "\x27, used other teams"]
    else []

/-- The per-developer warnings emitted by the final loop of
assign_reviewers_bucket (partial-assignment warning, then team warnings),
computed from the developer record whose reviewers field is already set. -/
def bucket_final_warnings (developer : Developer) (reviewers : List Developer)
    (num_reviewers : Nat) (team_mode : Bool) : List String :=
  (if developer.reviewers.length < num_reviewers ∧ ¬ developer.reviewers.isEmpty then
    [developer.name ++ ": Only assigned " ++ toString developer.reviewers.length ++
      "/" ++ toString num_reviewers ++ " reviewers (not enough available)"]
   else []) ++
  (if team_mode ∧ developer.team ≠ "" then
    generate_bucket_team_warnings developer reviewers num_reviewers
   else [])

/-- pairing.py assign_reviewers_bucket. Python mutates the Developer objects
and the History in place and returns the warnings; here the updated roster and
history are returned alongside them. -/
def assign_reviewers_bucket (developers : List Developer) (history : History)
    (num_reviewers : Nat) (team_mode : Bool) (knowledge_mode : KnowledgeMode)
    (exclusions : List (String × String))
    (requirements : List (String × List String)) :
    List Developer × History × List String :=
  let reviewers := developers.filter (fun d => d.can_review)
  if reviewers.isEmpty then
    (developers.map (fun d => { d with reviewers := [] }), history,
      ["No reviewers available in the team"])
  else
    let vapr := validate_and_process_requirements requirements (by_name developers)
      (by_name reviewers) exclusions knowledge_mode
    let required_assignments := vapr.1
    let required_reviewers_used := vapr.2.1
    let req_warnings := vapr.2.2
    let all_pairs := build_all_pairs developers reviewers required_assignments
      exclusions knowledge_mode team_mode history
    if all_pairs.isEmpty then
      let devs2 := developers.map (fun d =>
        { d with reviewers := (alGet required_assignments d.name).getD [] })
      (devs2, history,
        req_warnings ++ devs2.flatMap (fun d =>
          if d.reviewers.isEmpty then ["No reviewers available for " ++ d.name]
          else []))
    else
      let sorted_pairs := stableSort bucketLe0 all_pairs
      let assigned0 := developers.foldl
        (fun m d => if alMem m d.name then m else alSet m d.name [])
        required_assignments
      let load0 : String → Nat := fun n =>
        if n ∈ required_reviewers_used then 1 else 0
      let assignedF := (greedy_assign num_reviewers
        (all_pairs.length * num_reviewers) sorted_pairs assigned0 load0).1
      let devs2 := developers.map (fun d =>
        { d with reviewers := (alGet assignedF d.name).getD [] })
      let history2 := devs2.foldl
        (fun h d => update_history h d.name d.reviewers) history
      (devs2, history2,
        req_warnings ++ devs2.flatMap (fun d =>
          bucket_final_warnings d reviewers num_reviewers team_mode))

/-- One iteration of the per-developer (non-balanced) loop of
assign_reviewers: state is (processed roster, current_assignments, history,
warnings accumulated so far). -/
def nonBalancedStep (reviewers : List Developer)
    (num_reviewers : Nat) (team_mode : Bool) (knowledge_mode : KnowledgeMode)
    (exclusions : List (String × String))
    (requirements : List (String × List String))
    (required_assignments : List (String × List String))
    (st : List Developer × (String → Nat) × History × List String)
    (developer : Developer) :
    List Developer × (String → Nat) × History × List String :=
  let (done, current_assignments, history, warns) := st
  if reviewers.isEmpty then
    (done ++ [{ developer with reviewers := [] }], current_assignments, history,
      warns ++ ["No reviewers available in the team"])
  else
    let dev_requirements := (alGet required_assignments developer.name).getD []
    let sel := select_reviewers developer reviewers history
      num_reviewers team_mode current_assignments knowledge_mode exclusions
      requirements false
    let selected := sel.1
    let selWarns := sel.2
    let final_selected := dev_requirements ++
      selected.filter (fun s => s ∉ dev_requirements)
    let newRevs := final_selected.take num_reviewers
    let ca2 := newRevs.foldl
      (fun ca r => fun n => if n = r then ca n + 1 else ca n) current_assignments
    let history2 := update_history history developer.name newRevs
    let partialWarns :=
      if newRevs.length < num_reviewers ∧ ¬ newRevs.isEmpty then
        [developer.name ++ ": Only assigned " ++ toString newRevs.length ++ "/" ++
          toString num_reviewers ++ " reviewers (not enough available)"]
      else []
    (done ++ [{ developer with reviewers := newRevs }], ca2, history2,
      warns ++ selWarns ++ partialWarns)

/-- pairing.py assign_reviewers: dispatches to the bucket strategy in balance
mode, otherwise runs the per-developer loop threading current_assignments and
the history through each step. -/
def assign_reviewers (developers : List Developer) (history : History)
    (num_reviewers : Nat) (team_mode : Bool) (knowledge_mode : KnowledgeMode)
    (exclusions : List (String × String))
    (requirements : List (String × List String)) (balance_mode : Bool) :
    List Developer × History × List String :=
  if balance_mode then
    assign_reviewers_bucket developers history num_reviewers team_mode
      knowledge_mode exclusions requirements
  else
    let reviewers := developers.filter (fun d => d.can_review)
    let vapr := validate_and_process_requirements requirements (by_name developers)
      (by_name reviewers) exclusions knowledge_mode
    let required_assignments := vapr.1
    let required_reviewers_used := vapr.2.1
    let req_warnings := vapr.2.2
    let ca0 : String → Nat := fun n => if n ∈ required_reviewers_used then 1 else 0
    let final := developers.foldl
      (nonBalancedStep reviewers num_reviewers team_mode knowledge_mode
        exclusions requirements required_assignments)
      ([], ca0, history, req_warnings)
    (final.1, final.2.2.1, final.2.2.2)

/-- requirements.py check_conflicts: one conflict message per requirement
entry that also appears in the exclusion set, scanning the whole requirement
map against the whole exclusion set. -/
def check_conflicts (requirements : List (String × List String))
    (exclusions : List (String × String)) : List String :=
  requirements.flatMap (fun entry =>
    (entry.snd.filter (fun reviewer => (entry.fst, reviewer) ∈ exclusions)).map
      (fun reviewer =>
        "Conflict: \x27" ++ entry.fst ++ ":" ++ reviewer ++
          "\x27 is both required and excluded"))

/-- Modelled from the spec: the run driver that wires `check_conflicts` into
the assignment pipeline is not part of the extracted sources (only
`check_conflicts` itself and its tests are), so it is modelled from the
spec sentence "conflict with exclusions (same pair required AND excluded) is
a fatal condition reported before any assignment proceeds": the whole
requirement map is checked against the whole exclusion set first, and on any
conflict the run aborts with the conflict report, before `assign_reviewers`
is invoked and hence before any assignment work or History mutation. -/
def run_with_requirements (developers : List Developer) (history : History)
    (num_reviewers : Nat) (team_mode : Bool) (knowledge_mode : KnowledgeMode)
    (exclusions : List (String × String))
    (requirements : List (String × List String)) (balance_mode : Bool) :
    Except (List String) (List Developer × History × List String) :=
  let conflicts := check_conflicts requirements exclusions
  if conflicts.isEmpty then
    Except.ok (assign_reviewers developers history num_reviewers team_mode
      knowledge_mode exclusions requirements balance_mode)
  else
    Except.error conflicts

/-- The mutable environment visible to select_reviewers: the developer and
candidate objects, the history ledger and the in-pass load counters. -/
structure SelState where
  dev : Developer
  candidates : List Developer
  history : History
  current_assignments : String → Nat

/-- select_reviewers with its statement-level effects made explicit: every
step reads from the state and rebinds only locals, so the state component
threads through unchanged and the result is exactly the pure function. -/
def select_reviewersS (s : SelState) (num_reviewers : Nat) (team_mode : Bool)
    (knowledge_mode : KnowledgeMode) (exclusions : List (String × String))
    (requirements : List (String × List String)) (balance_mode : Bool) :
    SelState × (List String × List String) :=
  let step1 := (s, sel_candidates1 s.dev s.candidates)
  let (s, candidates) := step1
  if candidates.isEmpty then
    (s, ([], ["No reviewers available for " ++ s.dev.name]))
  else
    let step2 := (s, sel_excluded_reviewers s.dev exclusions)
    let (s, excluded_reviewers) := step2
    let step3 := (s, sel_candidates2 s.dev s.candidates exclusions)
    let (s, candidates2) := step3
    if ¬ excluded_reviewers.isEmpty ∧ candidates2.isEmpty then
      (s, ([], [s.dev.name ++ ": All reviewers excluded, cannot assign any reviewers"]))
    else
      let step5 := (s, sel_candidates3 s.dev s.candidates exclusions requirements)
      let (s, candidates3) := step5
      if candidates3.isEmpty then
        (s, ([], ["No reviewers available for " ++ s.dev.name]))
      else
        let step6 := (s, sel_filtered s.dev s.candidates exclusions requirements
          knowledge_mode)
        let (s, filtered) := step6
        if knowledge_mode ≠ .anyone ∧ filtered.isEmpty then
          if knowledge_mode = .expertsOnly then
            (s, ([], [s.dev.name ++ ": No experts (level " ++
              toString EXPERT_MIN_LEVEL ++ "-5) available for review"]))
          else if knowledge_mode = .mentorship then
            (s, ([], [s.dev.name ++ ": No mentors (level " ++
              toString EXPERT_MIN_LEVEL ++ "-5) available for novice developer"]))
          else
            (s, ([], [s.dev.name ++ ": No suitable reviewers found"]))
        else
          let step7 := (s, sel_sorted s.dev s.candidates s.history
            s.current_assignments team_mode knowledge_mode exclusions
            requirements balance_mode)
          let (s, sorted_candidates) := step7
          let selected := (sorted_candidates.take num_reviewers).map (fun c => c.name)
          let warns :=
            if team_mode ∧ s.dev.team ≠ "" then
              generate_team_warnings s.dev sorted_candidates num_reviewers
            else []
          (s, (selected, warns))

/-- Reviewer names that are eligible for `dev` in the sense of the quota
claim: able to review, not the developer itself, not excluded for it, and
compatible under the active knowledge mode. -/
def eligible_reviewers (developers : List Developer)
    (exclusions : List (String × String)) (knowledge_mode : KnowledgeMode)
    (dev : Developer) : List Developer :=
  developers.filter (fun c => c.can_review && decide (c.name ≠ dev.name) &&
    decide ((dev.name, c.name) ∉ exclusions) &&
    is_valid_knowledge_pair dev c knowledge_mode)

/-- The validated requirement map produced inside assign_reviewers for a
given roster and constraint set (the first component of
validate_and_process_requirements on the by-name dicts of the roster). -/
def validated_requirements (developers : List Developer)
    (exclusions : List (String × String)) (knowledge_mode : KnowledgeMode)
    (requirements : List (String × List String)) : List (String × List String) :=
  (validate_and_process_requirements requirements (by_name developers)
    (by_name (developers.filter (fun d => d.can_review))) exclusions
    knowledge_mode).1

/-- Number of reviews assigned to the named reviewer across a processed
roster (its load, as the balance property counts it). -/
def reviewer_load (developers : List Developer) (reviewer_name : String) : Nat :=
  (developers.map (fun d => d.reviewers.count reviewer_name)).sum

/-! ### Stable-sort lemmas -/

theorem insertLe_perm {α : Type} (le : α → α → Bool) (x : α) (l : List α) :
    (insertLe le x l).Perm (x :: l) := by
  induction l with
  | nil => exact List.Perm.refl _
  | cons y ys ih =>
    unfold insertLe
    by_cases h : le x y
    · rw [if_pos h]
    · rw [if_neg h]
      exact List.Perm.trans (List.Perm.cons y ih) (List.Perm.swap x y ys)

theorem stableSort_perm {α : Type} (le : α → α → Bool) (l : List α) :
    (stableSort le l).Perm l := by
  induction l with
  | nil => exact List.Perm.refl _
  | cons x xs ih =>
    unfold stableSort
    exact List.Perm.trans (insertLe_perm le x (stableSort le xs))
      (List.Perm.cons x ih)

theorem length_stableSort {α : Type} (le : α → α → Bool) (l : List α) :
    (stableSort le l).length = l.length :=
  (stableSort_perm le l).length_eq

theorem mem_stableSort {α : Type} {le : α → α → Bool} {a : α} {l : List α} :
    a ∈ stableSort le l ↔ a ∈ l :=
  (stableSort_perm le l).mem_iff

/-! ### Association-list lemmas -/

theorem alGet_alSet {α : Type} (m : List (String × α)) (k n : String) (v : α) :
    alGet (alSet m k v) n = if k = n then some v else alGet m n := by
  induction m with
  | nil =>
    by_cases h : k = n <;> simp [alSet, alGet, h]
  | cons p rest ih =>
    obtain ⟨k2, v2⟩ := p
    by_cases h1 : k2 = k
    · subst h1
      by_cases h2 : k2 = n <;> simp [alSet, alGet, h2]
    · by_cases h2 : k2 = n
      · subst h2
        have hkn : ¬ k = k2 := fun h => h1 h.symm
        simp [alSet, alGet, h1, hkn]
      · simp [alSet, alGet, h1, h2, ih]

theorem alGet_alSet_self {α : Type} (m : List (String × α)) (k : String) (v : α) :
    alGet (alSet m k v) k = some v := by
  simp [alGet_alSet]

theorem alGet_alSet_ne {α : Type} (m : List (String × α)) {k n : String} (v : α)
    (h : k ≠ n) : alGet (alSet m k v) n = alGet m n := by
  simp [alGet_alSet, h]

theorem alGet_eq_none_of_not_key {α : Type} (m : List (String × α)) (n : String)
    (h : ∀ p ∈ m, p.fst ≠ n) : alGet m n = none := by
  induction m with
  | nil => rfl
  | cons p rest ih =>
    have hp : p.fst ≠ n := h p (List.mem_cons_self p rest)
    simp only [alGet]
    rw [if_neg hp]
    exact ih (fun q hq => h q (List.mem_cons_of_mem p hq))

/-! ### by_name lemmas -/

theorem alGet_foldl_alSet_of_no_name {l : List Developer}
    {m : List (String × Developer)} {n : String} (h : ∀ d ∈ l, d.name ≠ n) :
    alGet (l.foldl (fun m d => alSet m d.name d) m) n = alGet m n := by
  induction l generalizing m with
  | nil => rfl
  | cons a l ih =>
    have ha : a.name ≠ n := h a (List.mem_cons_self a l)
    simp only [List.foldl_cons]
    rw [ih (fun d hd => h d (List.mem_cons_of_mem a hd))]
    exact alGet_alSet_ne m a ha

theorem alGet_foldl_alSet_of_nodup (l : List Developer) (d : Developer) :
    ∀ (m : List (String × Developer)), (l.map Developer.name).Nodup → d ∈ l →
    alGet (l.foldl (fun m x => alSet m x.name x) m) d.name = some d := by
  induction l with
  | nil => intro m _ hd; cases hd
  | cons a l ih =>
    intro m hnd hd
    simp only [List.map_cons, List.nodup_cons] at hnd
    rcases List.mem_cons.mp hd with rfl | hmem
    · have hno : ∀ x ∈ l, x.name ≠ d.name := by
        intro x hx heq
        exact hnd.1 (heq ▸ List.mem_map_of_mem Developer.name hx)
      simp only [List.foldl_cons]
      rw [alGet_foldl_alSet_of_no_name hno]
      exact alGet_alSet_self m d.name d
    · simp only [List.foldl_cons]
      exact ih (alSet m a.name a) hnd.2 hmem

theorem alGet_by_name_of_nodup {l : List Developer} {d : Developer}
    (hnodup : (l.map Developer.name).Nodup) (hd : d ∈ l) :
    alGet (by_name l) d.name = some d :=
  alGet_foldl_alSet_of_nodup l d [] hnodup hd

theorem foldl_alSet_lookup (l : List Developer) (n : String) (d : Developer) :
    ∀ (m : List (String × Developer)),
    alGet (l.foldl (fun m x => alSet m x.name x) m) n = some d →
    (d ∈ l ∧ d.name = n) ∨ alGet m n = some d := by
  induction l with
  | nil => intro m hm; exact Or.inr hm
  | cons a l ih =>
    intro m hm
    simp only [List.foldl_cons] at hm
    rcases ih (alSet m a.name a) hm with h1 | h1
    · exact Or.inl ⟨List.mem_cons_of_mem a h1.1, h1.2⟩
    · rw [alGet_alSet] at h1
      by_cases he : a.name = n
      · rw [if_pos he] at h1
        injection h1 with h2
        subst h2
        exact Or.inl ⟨List.mem_cons_self _ l, he⟩
      · rw [if_neg he] at h1
        exact Or.inr h1

theorem by_name_mem_of_alGet {l : List Developer} {n : String} {d : Developer}
    (h : alGet (by_name l) n = some d) : d ∈ l ∧ d.name = n := by
  unfold by_name at h
  rcases foldl_alSet_lookup l n d [] h with h1 | h1
  · exact h1
  · simp [alGet] at h1

/-! ### Requirement-validation lemmas -/

/-- The conditions under which the inner validation loop accepts a
requirement (dev_name, r): the checks of validate_and_process_requirements. -/
def ReqOk (reviewers_by_name : List (String × Developer))
    (exclusions : List (String × String)) (knowledge_mode : KnowledgeMode)
    (dev : Developer) (dev_name r : String) : Prop :=
  r ≠ dev_name ∧ (dev_name, r) ∉ exclusions ∧
    ∃ rev, alGet reviewers_by_name r = some rev ∧
      is_valid_knowledge_pair dev rev knowledge_mode = true

theorem reqStep_assigned (dev_name : String)
    (rbn : List (String × Developer)) (dev : Developer)
    (exclusions : List (String × String)) (km : KnowledgeMode)
    (st : List String × List String × List String) (rn : String) :
    (reqStep dev_name rbn dev exclusions km st rn).1 = st.1 ∨
    ((reqStep dev_name rbn dev exclusions km st rn).1 = st.1 ++ [rn] ∧
      ReqOk rbn exclusions km dev dev_name rn) := by
  obtain ⟨assigned, used, warns⟩ := st
  cases h : alGet rbn rn with
  | none =>
    left
    simp [reqStep, h]
  | some rev =>
    by_cases h1 : rn = dev_name
    · left
      subst h1
      simp [reqStep, h]
    · by_cases h2 : (dev_name, rn) ∈ exclusions
      · left
        simp [reqStep, h, h1, h2]
      · by_cases h3 : is_valid_knowledge_pair dev rev km = true
        · right
          refine ⟨?_, h1, h2, rev, h, h3⟩
          simp [reqStep, h, h1, h2, h3]
        · left
          simp [reqStep, h, h1, h2, h3]

theorem reqFold_sound (dev_name : String) (rbn : List (String × Developer))
    (dev : Developer) (exclusions : List (String × String)) (km : KnowledgeMode)
    (lst : List String) :
    ∀ (st : List String × List String × List String),
    ∀ r ∈ (lst.foldl (reqStep dev_name rbn dev exclusions km) st).1,
    r ∈ st.1 ∨ (r ∈ lst ∧ ReqOk rbn exclusions km dev dev_name r) := by
  induction lst with
  | nil => intro st r hr; exact Or.inl hr
  | cons a lst ih =>
    intro st r hr
    simp only [List.foldl_cons] at hr
    rcases ih (reqStep dev_name rbn dev exclusions km st a) r hr with h1 | h1
    · rcases reqStep_assigned dev_name rbn dev exclusions km st a with h2 | h2
      · rw [h2] at h1
        exact Or.inl h1
      · rw [h2.1] at h1
        rcases List.mem_append.mp h1 with h3 | h3
        · exact Or.inl h3
        · have : r = a := by simpa using h3
          subst this
          exact Or.inr ⟨List.mem_cons_self r lst, h2.2⟩
    · exact Or.inr ⟨List.mem_cons_of_mem a h1.1, h1.2⟩

theorem reqFold_mono (dev_name : String) (rbn : List (String × Developer))
    (dev : Developer) (exclusions : List (String × String)) (km : KnowledgeMode)
    (lst : List String) :
    ∀ (st : List String × List String × List String) (r : String), r ∈ st.1 →
    r ∈ (lst.foldl (reqStep dev_name rbn dev exclusions km) st).1 := by
  induction lst with
  | nil => intro st r hr; exact hr
  | cons a lst ih =>
    intro st r hr
    simp only [List.foldl_cons]
    refine ih _ r ?_
    rcases reqStep_assigned dev_name rbn dev exclusions km st a with h2 | h2
    · rw [h2]; exact hr
    · rw [h2.1]; exact List.mem_append_left _ hr

theorem reqFold_complete (dev_name : String) (rbn : List (String × Developer))
    (dev : Developer) (exclusions : List (String × String)) (km : KnowledgeMode)
    (lst : List String) :
    ∀ (st : List String × List String × List String) (r : String), r ∈ lst →
    ReqOk rbn exclusions km dev dev_name r →
    r ∈ (lst.foldl (reqStep dev_name rbn dev exclusions km) st).1 := by
  induction lst with
  | nil => intro st r hr; cases hr
  | cons a lst ih =>
    intro st r hr hok
    simp only [List.foldl_cons]
    rcases List.mem_cons.mp hr with rfl | hmem
    · refine reqFold_mono dev_name rbn dev exclusions km lst _ r ?_
      obtain ⟨h1, h2, rev, h3, h4⟩ := hok
      obtain ⟨assigned, used, warns⟩ := st
      unfold reqStep
      rw [h3]
      simp only [if_neg h1, if_neg h2, h4]
      simp
    · exact ih _ r hmem hok

theorem vaprStep_ra (dbn rbn : List (String × Developer))
    (exclusions : List (String × String)) (km : KnowledgeMode)
    (acc : List (String × List String) × List String × List String)
    (entry : String × List String) :
    (vaprStep dbn rbn exclusions km acc entry).1 = acc.1 ∨
    ∃ dev, alGet dbn entry.fst = some dev ∧
      (vaprStep dbn rbn exclusions km acc entry).1 =
        alSet acc.1 entry.fst
          ((entry.snd.foldl (reqStep entry.fst rbn dev exclusions km)
            ([], acc.2.1, acc.2.2)).1) := by
  obtain ⟨ra, used, warns⟩ := acc
  cases h : alGet dbn entry.fst with
  | none =>
    left
    simp [vaprStep, h]
  | some dev =>
    right
    refine ⟨dev, rfl, ?_⟩
    simp [vaprStep, h]

theorem vapr_fold_preserve (dbn rbn : List (String × Developer))
    (exclusions : List (String × String)) (km : KnowledgeMode)
    (reqs : List (String × List String)) (dn : String) :
    ∀ (acc : List (String × List String) × List String × List String),
    (∀ e ∈ reqs, e.fst ≠ dn) →
    alGet ((reqs.foldl (vaprStep dbn rbn exclusions km) acc).1) dn =
      alGet acc.1 dn := by
  induction reqs with
  | nil => intro acc _; rfl
  | cons e reqs ih =>
    intro acc hk
    simp only [List.foldl_cons]
    rw [ih _ (fun x hx => hk x (List.mem_cons_of_mem e hx))]
    rcases vaprStep_ra dbn rbn exclusions km acc e with h1 | ⟨dev, _, h1⟩
    · rw [h1]
    · rw [h1]
      exact alGet_alSet_ne _ _ (hk e (List.mem_cons_self e reqs))

theorem vapr_complete (dbn rbn : List (String × Developer))
    (exclusions : List (String × String)) (km : KnowledgeMode)
    (reqs : List (String × List String)) (dn : String) (lst : List String)
    (r : String) (dev : Developer) :
    ∀ (acc : List (String × List String) × List String × List String),
    (reqs.map Prod.fst).Nodup → (dn, lst) ∈ reqs →
    alGet dbn dn = some dev → r ∈ lst →
    ReqOk rbn exclusions km dev dn r →
    r ∈ (alGet ((reqs.foldl (vaprStep dbn rbn exclusions km) acc).1) dn).getD [] := by
  induction reqs with
  | nil =>
    intro acc _ hmem
    cases hmem
  | cons e reqs ih =>
    intro acc hnd hmem hdev hr hok
    simp only [List.map_cons, List.nodup_cons] at hnd
    rcases List.mem_cons.mp hmem with rfl | hmem2
    · have hk : ∀ x ∈ reqs, x.fst ≠ dn := by
        intro x hx heq
        have hmm : x.fst ∈ List.map Prod.fst reqs := List.mem_map_of_mem Prod.fst hx
        rw [heq] at hmm
        exact hnd.1 hmm
      simp only [List.foldl_cons]
      rw [vapr_fold_preserve dbn rbn exclusions km reqs dn _ hk]
      obtain ⟨ra, used, warns⟩ := acc
      simp only [vaprStep, hdev]
      rw [alGet_alSet_self]
      simp only [Option.getD_some]
      exact reqFold_complete dn rbn dev exclusions km lst _ r hr hok
    · simp only [List.foldl_cons]
      exact ih _ hnd.2 hmem2 hdev hr hok

theorem vapr_sound (dbn rbn : List (String × Developer))
    (exclusions : List (String × String)) (km : KnowledgeMode)
    (reqs : List (String × List String)) :
    ∀ (acc : List (String × List String) × List String × List String),
    (∀ dn lst, alGet acc.1 dn = some lst → ∀ r ∈ lst,
      ∃ dev, alGet dbn dn = some dev ∧ ReqOk rbn exclusions km dev dn r) →
    ∀ dn lst,
    alGet ((reqs.foldl (vaprStep dbn rbn exclusions km) acc).1) dn = some lst →
    ∀ r ∈ lst, ∃ dev, alGet dbn dn = some dev ∧
      ReqOk rbn exclusions km dev dn r := by
  induction reqs with
  | nil =>
    intro acc hacc dn lst hget
    exact hacc dn lst hget
  | cons e reqs ih =>
    intro acc hacc dn lst hget
    simp only [List.foldl_cons] at hget
    refine ih _ ?_ dn lst hget
    intro dn2 lst2 hget2 r hr
    rcases vaprStep_ra dbn rbn exclusions km acc e with h1 | ⟨dev, hdev, h1⟩
    · rw [h1] at hget2
      exact hacc dn2 lst2 hget2 r hr
    · rw [h1, alGet_alSet] at hget2
      by_cases he : e.fst = dn2
      · rw [if_pos he] at hget2
        injection hget2 with h2
        subst h2
        subst he
        rcases reqFold_sound e.fst rbn dev exclusions km e.snd _ r hr with h3 | h3
        · simp at h3
        · exact ⟨dev, hdev, h3.2⟩
      · rw [if_neg he] at hget2
        exact hacc dn2 lst2 hget2 r hr

theorem vapr_origin (dbn rbn : List (String × Developer))
    (exclusions : List (String × String)) (km : KnowledgeMode)
    (reqs : List (String × List String)) :
    ∀ (acc : List (String × List String) × List String × List String) (dn : String)
      (lst : List String),
    alGet ((reqs.foldl (vaprStep dbn rbn exclusions km) acc).1) dn = some lst →
    (∃ e ∈ reqs, e.fst = dn ∧ ∀ r ∈ lst, r ∈ e.snd) ∨ alGet acc.1 dn = some lst := by
  induction reqs with
  | nil =>
    intro acc dn lst hget
    exact Or.inr hget
  | cons e reqs ih =>
    intro acc dn lst hget
    simp only [List.foldl_cons] at hget
    rcases ih _ dn lst hget with h1 | h1
    · obtain ⟨e2, he2, h2, h3⟩ := h1
      exact Or.inl ⟨e2, List.mem_cons_of_mem e he2, h2, h3⟩
    · rcases vaprStep_ra dbn rbn exclusions km acc e with h2 | ⟨dev, hdev, h2⟩
      · rw [h2] at h1
        exact Or.inr h1
      · rw [h2, alGet_alSet] at h1
        by_cases he : e.fst = dn
        · rw [if_pos he] at h1
          injection h1 with h3
          subst h3
          refine Or.inl ⟨e, List.mem_cons_self e reqs, he, ?_⟩
          intro r hr
          rcases reqFold_sound e.fst rbn dev exclusions km e.snd _ r hr with h4 | h4
          · simp at h4
          · exact h4.1
        · rw [if_neg he] at h1
          exact Or.inr h1

/-! ### Greedy-loop lemmas -/

theorem greedy_assign_zero (num : Nat) (pairs : List PairEntry)
    (assigned : List (String × List String)) (load : String → Nat) :
    greedy_assign num 0 pairs assigned load = (assigned, load) := by
  cases pairs <;> rfl

theorem greedy_assign_nil (num fuel : Nat)
    (assigned : List (String × List String)) (load : String → Nat) :
    greedy_assign num fuel [] assigned load = (assigned, load) := by
  cases fuel <;> rfl

theorem greedy_assign_cons (num fuel : Nat) (p : PairEntry)
    (rest : List PairEntry) (assigned : List (String × List String))
    (load : String → Nat) :
    greedy_assign num (fuel + 1) (p :: rest) assigned load =
      (if num ≤ ((alGet assigned p.dev.name).getD []).length then
        greedy_assign num fuel rest assigned load
      else
        greedy_assign num fuel
          (stableSort (bucketLe (fun n =>
            if n = p.reviewer.name then load n + 1 else load n)) rest)
          (alSet assigned p.dev.name
            (((alGet assigned p.dev.name).getD []) ++ [p.reviewer.name]))
          (fun n => if n = p.reviewer.name then load n + 1 else load n)) := by
  rfl

theorem greedy_assign_getD_append (num : Nat) (fuel : Nat) :
    ∀ (pairs : List PairEntry) (assigned : List (String × List String))
      (load : String → Nat) (dn : String),
    ∃ t, (alGet (greedy_assign num fuel pairs assigned load).1 dn).getD [] =
      (alGet assigned dn).getD [] ++ t := by
  induction fuel with
  | zero =>
    intro pairs assigned load dn
    rw [greedy_assign_zero]
    exact ⟨[], (List.append_nil _).symm⟩
  | succ fuel ih =>
    intro pairs assigned load dn
    cases pairs with
    | nil =>
      rw [greedy_assign_nil]
      exact ⟨[], (List.append_nil _).symm⟩
    | cons p rest =>
      rw [greedy_assign_cons]
      by_cases hfull : num ≤ ((alGet assigned p.dev.name).getD []).length
      · rw [if_pos hfull]
        exact ih rest assigned load dn
      · rw [if_neg hfull]
        obtain ⟨t, ht⟩ := ih
          (stableSort (bucketLe (fun n =>
            if n = p.reviewer.name then load n + 1 else load n)) rest)
          (alSet assigned p.dev.name
            (((alGet assigned p.dev.name).getD []) ++ [p.reviewer.name]))
          (fun n => if n = p.reviewer.name then load n + 1 else load n) dn
        rw [ht, alGet_alSet]
        by_cases he : p.dev.name = dn
        · subst he
          rw [if_pos rfl]
          exact ⟨[p.reviewer.name] ++ t, by simp⟩
        · rw [if_neg he]
          exact ⟨t, rfl⟩

theorem greedy_assign_len_le (num : Nat) (fuel : Nat) :
    ∀ (pairs : List PairEntry) (assigned : List (String × List String))
      (load : String → Nat) (dn : String),
    ((alGet assigned dn).getD []).length ≤ num →
    ((alGet (greedy_assign num fuel pairs assigned load).1 dn).getD []).length ≤ num := by
  induction fuel with
  | zero =>
    intro pairs assigned load dn h
    rw [greedy_assign_zero]
    exact h
  | succ fuel ih =>
    intro pairs assigned load dn h
    cases pairs with
    | nil =>
      rw [greedy_assign_nil]
      exact h
    | cons p rest =>
      rw [greedy_assign_cons]
      by_cases hfull : num ≤ ((alGet assigned p.dev.name).getD []).length
      · rw [if_pos hfull]
        exact ih rest assigned load dn h
      · rw [if_neg hfull]
        refine ih _ _ _ dn ?_
        rw [alGet_alSet]
        by_cases he : p.dev.name = dn
        · rw [if_pos he]
          simp only [Option.getD_some, List.length_append, List.length_cons,
            List.length_nil]
          omega
        · rw [if_neg he]
          exact h

theorem greedy_assign_fuel_stable (num : Nat) (k : Nat) :
    ∀ (pairs : List PairEntry) (assigned : List (String × List String))
      (load : String → Nat) (fuel1 fuel2 : Nat),
    pairs.length = k → k ≤ fuel1 → k ≤ fuel2 →
    greedy_assign num fuel1 pairs assigned load =
      greedy_assign num fuel2 pairs assigned load := by
  induction k with
  | zero =>
    intro pairs assigned load fuel1 fuel2 hlen _ _
    have : pairs = [] := List.length_eq_zero.mp hlen
    subst this
    rw [greedy_assign_nil, greedy_assign_nil]
  | succ k ih =>
    intro pairs assigned load fuel1 fuel2 hlen h1 h2
    cases pairs with
    | nil => rw [greedy_assign_nil, greedy_assign_nil]
    | cons p rest =>
      obtain ⟨f1, rfl⟩ : ∃ f1, fuel1 = f1 + 1 :=
        ⟨fuel1 - 1, by omega⟩
      obtain ⟨f2, rfl⟩ : ∃ f2, fuel2 = f2 + 1 :=
        ⟨fuel2 - 1, by omega⟩
      have hrest : rest.length = k := by
        simpa using hlen
      rw [greedy_assign_cons, greedy_assign_cons]
      by_cases hfull : num ≤ ((alGet assigned p.dev.name).getD []).length
      · rw [if_pos hfull, if_pos hfull]
        exact ih rest assigned load f1 f2 hrest (by omega) (by omega)
      · rw [if_neg hfull, if_neg hfull]
        refine ih _ _ _ f1 f2 ?_ (by omega) (by omega)
        rw [length_stableSort]
        exact hrest

theorem greedy_assign_mem_source (num : Nat) (fuel : Nat) :
    ∀ (pairs : List PairEntry) (assigned : List (String × List String))
      (load : String → Nat) (dn : String) (x : String),
    x ∈ (alGet (greedy_assign num fuel pairs assigned load).1 dn).getD [] →
    x ∈ (alGet assigned dn).getD [] ∨
      ∃ p ∈ pairs, p.dev.name = dn ∧ p.reviewer.name = x := by
  induction fuel with
  | zero =>
    intro pairs assigned load dn x h
    rw [greedy_assign_zero] at h
    exact Or.inl h
  | succ fuel ih =>
    intro pairs assigned load dn x h
    cases pairs with
    | nil =>
      rw [greedy_assign_nil] at h
      exact Or.inl h
    | cons p rest =>
      rw [greedy_assign_cons] at h
      by_cases hfull : num ≤ ((alGet assigned p.dev.name).getD []).length
      · rw [if_pos hfull] at h
        rcases ih rest assigned load dn x h with h1 | ⟨q, hq, h2⟩
        · exact Or.inl h1
        · exact Or.inr ⟨q, List.mem_cons_of_mem p hq, h2⟩
      · rw [if_neg hfull] at h
        rcases ih _ _ _ dn x h with h1 | ⟨q, hq, h2⟩
        · rw [alGet_alSet] at h1
          by_cases he : p.dev.name = dn
          · subst he
            rw [if_pos rfl] at h1
            simp only [Option.getD_some] at h1
            rcases List.mem_append.mp h1 with h3 | h3
            · exact Or.inl h3
            · have : x = p.reviewer.name := by simpa using h3
              exact Or.inr ⟨p, List.mem_cons_self p rest, rfl, this.symm⟩
          · rw [if_neg he] at h1
            exact Or.inl h1
        · rw [mem_stableSort] at hq
          exact Or.inr ⟨q, List.mem_cons_of_mem p hq, h2⟩

theorem greedy_assign_len_lower (num : Nat) (k : Nat) :
    ∀ (pairs : List PairEntry) (assigned : List (String × List String))
      (load : String → Nat) (fuel : Nat) (dn : String),
    pairs.length = k → k ≤ fuel →
    min num (((alGet assigned dn).getD []).length +
      pairs.countP (fun q => q.dev.name == dn)) ≤
      ((alGet (greedy_assign num fuel pairs assigned load).1 dn).getD []).length := by
  induction k with
  | zero =>
    intro pairs assigned load fuel dn hlen _
    have : pairs = [] := List.length_eq_zero.mp hlen
    subst this
    rw [greedy_assign_nil]
    simp only [List.countP_nil, Nat.add_zero]
    exact Nat.le_trans (Nat.min_le_right _ _) (Nat.le_refl _)
  | succ k ih =>
    intro pairs assigned load fuel dn hlen hfuel
    cases pairs with
    | nil =>
      rw [greedy_assign_nil]
      simp only [List.countP_nil, Nat.add_zero]
      exact Nat.min_le_right _ _
    | cons p rest =>
      obtain ⟨f, rfl⟩ : ∃ f, fuel = f + 1 := ⟨fuel - 1, by omega⟩
      have hrest : rest.length = k := by simpa using hlen
      rw [greedy_assign_cons]
      by_cases hfull : num ≤ ((alGet assigned p.dev.name).getD []).length
      · rw [if_pos hfull]
        by_cases he : p.dev.name = dn
        · -- the discarded pair belongs to dn, but dn is already at quota
          subst he
          refine Nat.le_trans (Nat.le_trans (Nat.min_le_left _ _) hfull) ?_
          obtain ⟨t, ht⟩ := greedy_assign_getD_append num f rest assigned load p.dev.name
          rw [ht]
          simp only [List.length_append]
          omega
        · rw [List.countP_cons_of_neg _ _ (by simpa using he)]
          exact ih rest assigned load f dn hrest (by omega)
      · rw [if_neg hfull]
        have hperm : (stableSort (bucketLe (fun n =>
            if n = p.reviewer.name then load n + 1 else load n)) rest).Perm rest :=
          stableSort_perm _ rest
        have hcnt : (stableSort (bucketLe (fun n =>
            if n = p.reviewer.name then load n + 1 else load n)) rest).countP
            (fun q => q.dev.name == dn) =
            rest.countP (fun q => q.dev.name == dn) :=
          hperm.countP_eq _
        have hlen2 : (stableSort (bucketLe (fun n =>
            if n = p.reviewer.name then load n + 1 else load n)) rest).length = k := by
          rw [length_stableSort]
          exact hrest
        have hlow := ih _ (alSet assigned p.dev.name
            (((alGet assigned p.dev.name).getD []) ++ [p.reviewer.name]))
            (fun n => if n = p.reviewer.name then load n + 1 else load n) f dn
            hlen2 (by omega)
        rw [hcnt] at hlow
        refine Nat.le_trans ?_ hlow
        by_cases he : p.dev.name = dn
        · subst he
          rw [alGet_alSet, if_pos rfl, List.countP_cons_of_pos _ _ (by simp)]
          simp only [Option.getD_some, List.length_append, List.length_cons,
            List.length_nil]
          omega
        · rw [alGet_alSet, if_neg he, List.countP_cons_of_neg _ _ (by simpa using he)]

/-! ### Counting helpers -/

theorem length_filterMap_eq_countP {α β : Type} (f : α → Option β) (l : List α) :
    (l.filterMap f).length = l.countP (fun a => (f a).isSome) := by
  induction l with
  | nil => rfl
  | cons a l ih =>
    cases h : f a with
    | none =>
      rw [List.filterMap_cons_none h, List.countP_cons_of_neg _ _ (by simp [h]), ih]
    | some b =>
      rw [List.filterMap_cons_some h, List.countP_cons_of_pos _ _ (by simp [h]),
        List.length_cons, ih]

theorem countP_split {α : Type} (p q : α → Bool) (l : List α) :
    l.countP p = l.countP (fun a => p a && q a) + l.countP (fun a => p a && !q a) := by
  induction l with
  | nil => rfl
  | cons a l ih =>
    by_cases hp : p a
    · by_cases hq : q a
      · rw [List.countP_cons_of_pos _ _ hp,
          List.countP_cons_of_pos _ _ (by simp [hp, hq]),
          List.countP_cons_of_neg _ _ (by simp [hp, hq]), ih]
        omega
      · rw [List.countP_cons_of_pos _ _ hp,
          List.countP_cons_of_neg _ _ (by simp [hp, hq]),
          List.countP_cons_of_pos _ _ (by simp [hp, hq]), ih]
        omega
    · rw [List.countP_cons_of_neg _ _ hp,
        List.countP_cons_of_neg _ _ (by simp [hp]),
        List.countP_cons_of_neg _ _ (by simp [hp]), ih]

theorem countP_flatMap_ge {α β : Type} (p : β → Bool) (g : α → List β)
    (l : List α) (a : α) (ha : a ∈ l) :
    (g a).countP p ≤ (l.flatMap g).countP p := by
  induction l with
  | nil => cases ha
  | cons x l ih =>
    rw [List.flatMap_cons, List.countP_append]
    rcases List.mem_cons.mp ha with rfl | hmem
    · exact Nat.le_add_right _ _
    · exact Nat.le_trans (ih hmem) (Nat.le_add_left _ _)

theorem nodup_subset_length {α : Type} [DecidableEq α] {l1 l2 : List α}
    (hnd : l1.Nodup) (hsub : ∀ x ∈ l1, x ∈ l2) : l1.length ≤ l2.length := by
  calc l1.length = l1.toFinset.card := (List.toFinset_card_of_nodup hnd).symm
    _ ≤ l2.toFinset.card := Finset.card_le_card (by
        intro x hx
        rw [List.mem_toFinset] at hx
        rw [List.mem_toFinset]
        exact hsub x hx)
    _ ≤ l2.length := List.toFinset_card_le l2

/-! ### Candidate-pool lemmas -/

theorem pair_candidate_eq_some {ra : List (String × List String)}
    {exclusions : List (String × String)} {km : KnowledgeMode}
    {team_mode : Bool} {history : History} {dev reviewer : Developer}
    {p : PairEntry}
    (hp : pair_candidate ra exclusions km team_mode history dev reviewer = some p) :
    p.dev = dev ∧ p.reviewer = reviewer ∧ dev.name ≠ reviewer.name ∧
    reviewer.name ∉ (alGet ra dev.name).getD [] ∧
    (dev.name, reviewer.name) ∉ exclusions ∧
    is_valid_knowledge_pair dev reviewer km = true := by
  unfold pair_candidate at hp
  by_cases h1 : dev.name = reviewer.name
  · rw [if_pos h1] at hp; cases hp
  rw [if_neg h1] at hp
  by_cases h2 : reviewer.name ∈ (alGet ra dev.name).getD []
  · rw [if_pos h2] at hp; cases hp
  rw [if_neg h2] at hp
  by_cases h3 : (dev.name, reviewer.name) ∈ exclusions
  · rw [if_pos h3] at hp; cases hp
  rw [if_neg h3] at hp
  by_cases h4 : is_valid_knowledge_pair dev reviewer km = true
  · rw [if_neg (by simp [h4])] at hp
    injection hp with hp
    subst hp
    exact ⟨rfl, rfl, h1, h2, h3, h4⟩
  · rw [if_pos (by simpa using h4)] at hp
    cases hp

theorem pair_candidate_isSome {ra : List (String × List String)}
    {exclusions : List (String × String)} {km : KnowledgeMode}
    {team_mode : Bool} {history : History} {dev reviewer : Developer}
    (h1 : dev.name ≠ reviewer.name)
    (h2 : reviewer.name ∉ (alGet ra dev.name).getD [])
    (h3 : (dev.name, reviewer.name) ∉ exclusions)
    (h4 : is_valid_knowledge_pair dev reviewer km = true) :
    (pair_candidate ra exclusions km team_mode history dev reviewer).isSome = true := by
  unfold pair_candidate
  rw [if_neg h1, if_neg h2, if_neg h3, if_neg (by simp [h4])]
  rfl

theorem build_all_pairs_sound {developers reviewers : List Developer}
    {ra : List (String × List String)} {exclusions : List (String × String)}
    {km : KnowledgeMode} {team_mode : Bool} {history : History} {p : PairEntry}
    (hp : p ∈ build_all_pairs developers reviewers ra exclusions km team_mode history) :
    p.dev ∈ developers ∧ p.reviewer ∈ reviewers ∧
    p.dev.name ≠ p.reviewer.name ∧
    p.reviewer.name ∉ (alGet ra p.dev.name).getD [] ∧
    (p.dev.name, p.reviewer.name) ∉ exclusions ∧
    is_valid_knowledge_pair p.dev p.reviewer km = true := by
  unfold build_all_pairs at hp
  rw [List.mem_flatMap] at hp
  obtain ⟨dev, hdev, hp⟩ := hp
  rw [List.mem_filterMap] at hp
  obtain ⟨reviewer, hrev, hp⟩ := hp
  obtain ⟨e1, e2, h1, h2, h3, h4⟩ := pair_candidate_eq_some hp
  subst e1
  subst e2
  exact ⟨hdev, hrev, h1, h2, h3, h4⟩

theorem build_all_pairs_count_ge {developers : List Developer}
    {ra : List (String × List String)} {exclusions : List (String × String)}
    {km : KnowledgeMode} {team_mode : Bool} {history : History} {d : Developer}
    (hd : d ∈ developers) :
    (eligible_reviewers developers exclusions km d).countP
      (fun c => !(decide (c.name ∈ (alGet ra d.name).getD []))) ≤
    (build_all_pairs developers (developers.filter (fun x => x.can_review)) ra
      exclusions km team_mode history).countP (fun q => q.dev.name == d.name) := by
  have hflat : ((developers.filter (fun x => x.can_review)).filterMap
      (pair_candidate ra exclusions km team_mode history d)).countP
        (fun q => q.dev.name == d.name) ≤
      (build_all_pairs developers (developers.filter (fun x => x.can_review)) ra
        exclusions km team_mode history).countP (fun q => q.dev.name == d.name) := by
    unfold build_all_pairs
    exact countP_flatMap_ge (fun q => q.dev.name == d.name)
      (fun dev => (developers.filter (fun x => x.can_review)).filterMap
        (pair_candidate ra exclusions km team_mode history dev)) developers d hd
  refine Nat.le_trans ?_ hflat
  have hinner : ((developers.filter (fun x => x.can_review)).filterMap
      (pair_candidate ra exclusions km team_mode history d)).countP
        (fun q => q.dev.name == d.name) =
      ((developers.filter (fun x => x.can_review)).filterMap
        (pair_candidate ra exclusions km team_mode history d)).length := by
    rw [List.countP_eq_length]
    intro q hq
    rw [List.mem_filterMap] at hq
    obtain ⟨c, _, hq⟩ := hq
    obtain ⟨e1, _, _⟩ := pair_candidate_eq_some hq
    rw [e1]
    simp
  rw [hinner, length_filterMap_eq_countP]
  unfold eligible_reviewers
  rw [List.countP_filter, List.countP_filter]
  refine List.countP_mono_left ?_
  intro c _ hc
  simp only [Bool.and_eq_true, decide_eq_true_eq, Bool.not_eq_true,
    decide_eq_false_iff_not] at hc
  obtain ⟨hninval, ⟨⟨⟨hcan, hne⟩, hexc⟩, hvk⟩⟩ := hc
  have h1 : d.name ≠ c.name := fun h => hne h.symm
  have h2 : c.name ∉ (alGet ra d.name).getD [] := by simpa using hninval
  rw [Bool.and_eq_true]
  exact ⟨pair_candidate_isSome h1 h2 hexc hvk, hcan⟩

/-! ### Quota lemmas for the bucket strategy -/

theorem alGet_fill_getD (developers : List Developer) :
    ∀ (ra : List (String × List String)) (n : String),
    (alGet (developers.foldl
      (fun m d => if alMem m d.name then m else alSet m d.name []) ra) n).getD [] =
    (alGet ra n).getD [] := by
  induction developers with
  | nil => intro ra n; rfl
  | cons a devs ih =>
    intro ra n
    simp only [List.foldl_cons]
    by_cases h : alMem ra a.name
    · rw [if_pos h]
      exact ih ra n
    · rw [if_neg h]
      rw [ih (alSet ra a.name []) n]
      rw [alGet_alSet]
      by_cases he : a.name = n
      · subst he
        unfold alMem at h
        cases hx : alGet ra a.name with
        | none => simp
        | some v =>
          rw [hx] at h
          simp at h
      · rw [if_neg he]

theorem eligible_le_validated_add_pool {developers : List Developer}
    {ra : List (String × List String)} {exclusions : List (String × String)}
    {km : KnowledgeMode} {team_mode : Bool} {history : History} {d : Developer}
    (hnodup : (developers.map Developer.name).Nodup) (hd : d ∈ developers) :
    (eligible_reviewers developers exclusions km d).length ≤
      ((alGet ra d.name).getD []).length +
      (build_all_pairs developers (developers.filter (fun x => x.can_review)) ra
        exclusions km team_mode history).countP (fun q => q.dev.name == d.name) := by
  set eligBool : Developer → Bool := fun c =>
    c.can_review && decide (c.name ≠ d.name) &&
    decide ((d.name, c.name) ∉ exclusions) &&
    is_valid_knowledge_pair d c km with helig
  set inval : Developer → Bool := fun c =>
    decide (c.name ∈ (alGet ra d.name).getD []) with hinv
  have hlen : (eligible_reviewers developers exclusions km d).length =
      developers.countP eligBool := by
    unfold eligible_reviewers
    rw [← List.countP_eq_length_filter]
  have hsplit := countP_split eligBool inval developers
  have hpart1 : developers.countP (fun a => eligBool a && inval a) ≤
      ((alGet ra d.name).getD []).length := by
    rw [List.countP_eq_length_filter]
    have hndsub : ((developers.filter (fun a => eligBool a && inval a)).map
        Developer.name).Nodup :=
      List.Nodup.sublist (List.Sublist.map _ (List.filter_sublist developers)) hnodup
    have hres := nodup_subset_length hndsub (fun x hx => by
      rw [List.mem_map] at hx
      obtain ⟨c, hc, rfl⟩ := hx
      rw [List.mem_filter] at hc
      have := hc.2
      rw [Bool.and_eq_true] at this
      have hin := this.2
      rw [hinv] at hin
      simpa using hin)
    simpa using hres
  have hpart2 : developers.countP (fun a => eligBool a && !inval a) ≤
      (build_all_pairs developers (developers.filter (fun x => x.can_review)) ra
        exclusions km team_mode history).countP (fun q => q.dev.name == d.name) := by
    refine Nat.le_trans ?_ (build_all_pairs_count_ge hd)
    unfold eligible_reviewers
    rw [List.countP_filter]
    refine Nat.le_of_eq (List.countP_congr ?_)
    intro c _
    rw [helig, hinv]
    constructor
    · intro h
      rw [Bool.and_eq_true] at h ⊢
      exact ⟨h.2, h.1⟩
    · intro h
      rw [Bool.and_eq_true] at h ⊢
      exact ⟨h.2, h.1⟩
  omega

theorem eligible_reviewers_update (developers : List Developer)
    (exclusions : List (String × String)) (km : KnowledgeMode) (d : Developer)
    (r : List String) :
    eligible_reviewers developers exclusions km { d with reviewers := r } =
      eligible_reviewers developers exclusions km d := rfl

theorem eligible_nil_of_no_reviewers {developers : List Developer}
    {exclusions : List (String × String)} {km : KnowledgeMode} {d : Developer}
    (h : (developers.filter (fun x => x.can_review)).isEmpty = true) :
    eligible_reviewers developers exclusions km d = [] := by
  rw [List.isEmpty_iff] at h
  unfold eligible_reviewers
  rw [List.filter_eq_nil_iff]
  intro c hc hcond
  have hcan : c.can_review = true := by
    rw [Bool.and_eq_true, Bool.and_eq_true, Bool.and_eq_true] at hcond
    exact hcond.1.1.1
  have : c ∈ developers.filter (fun x => x.can_review) :=
    List.mem_filter.mpr ⟨hc, hcan⟩
  rw [h] at this
  cases this

theorem bucket_quota {developers : List Developer} {history : History}
    {num : Nat} {team_mode : Bool} {km : KnowledgeMode}
    {exclusions : List (String × String)}
    {requirements : List (String × List String)}
    (hnodup : (developers.map Developer.name).Nodup)
    (hbound : ∀ n,
      ((alGet (validated_requirements developers exclusions km requirements) n).getD
        []).length ≤ num) :
    ∀ d2 ∈ (assign_reviewers_bucket developers history num team_mode km exclusions
      requirements).1,
    d2.reviewers.length ≤ num ∧
      (num ≤ (eligible_reviewers developers exclusions km d2).length →
        d2.reviewers.length = num) := by
  intro d2 hd2
  unfold validated_requirements at hbound
  unfold assign_reviewers_bucket at hd2
  by_cases hre : (developers.filter (fun d => d.can_review)).isEmpty = true
  · rw [if_pos hre] at hd2
    obtain ⟨d, hd, rfl⟩ := List.mem_map.mp hd2
    refine ⟨Nat.zero_le num, ?_⟩
    intro helig
    rw [eligible_reviewers_update, eligible_nil_of_no_reviewers hre] at helig
    simp only [List.length_nil, Nat.le_zero] at helig
    simp [helig]
  · rw [if_neg hre] at hd2
    simp only at hd2
    set ra := (validate_and_process_requirements requirements (by_name developers)
      (by_name (developers.filter (fun d => d.can_review))) exclusions km).1 with hra
    set pool := build_all_pairs developers
      (developers.filter (fun d => d.can_review)) ra exclusions km team_mode
      history with hpool
    by_cases hap : pool.isEmpty = true
    · rw [if_pos hap] at hd2
      obtain ⟨d, hd, rfl⟩ := List.mem_map.mp hd2
      have hcnt0 : pool.countP (fun q => q.dev.name == d.name) = 0 := by
        rw [List.isEmpty_iff] at hap
        rw [hap]
        rfl
      have hle := @eligible_le_validated_add_pool developers ra exclusions km
        team_mode history d hnodup hd
      rw [← hpool, hcnt0] at hle
      refine ⟨hbound d.name, ?_⟩
      intro helig
      rw [eligible_reviewers_update] at helig
      have h1 := hbound d.name
      dsimp only
      omega
    · rw [if_neg hap] at hd2
      obtain ⟨d, hd, rfl⟩ := List.mem_map.mp hd2
      set assigned0 := developers.foldl
        (fun m d => if alMem m d.name then m else alSet m d.name []) ra with ha0
      set load0 : String → Nat := fun n =>
        if n ∈ (validate_and_process_requirements requirements (by_name developers)
          (by_name (developers.filter (fun d => d.can_review))) exclusions km).2.1
        then 1 else 0 with hl0
      have hinit : ∀ n, (alGet assigned0 n).getD [] = (alGet ra n).getD [] := by
        intro n
        rw [ha0]
        exact alGet_fill_getD developers ra n
      have hupper : ((alGet ((greedy_assign num (pool.length * num)
          (stableSort bucketLe0 pool) assigned0 load0).1) d.name).getD []).length ≤
          num := by
        refine greedy_assign_len_le num _ _ _ _ _ ?_
        rw [hinit]
        exact hbound d.name
      refine ⟨hupper, ?_⟩
      intro helig
      rw [eligible_reviewers_update] at helig
      cases num with
      | zero => exact Nat.le_zero.mp hupper
      | succ n =>
        have hfuel : (stableSort bucketLe0 pool).length ≤ pool.length * (n + 1) := by
          rw [length_stableSort]
          exact Nat.le_mul_of_pos_right pool.length (Nat.succ_pos n)
        have hlow := greedy_assign_len_lower (n + 1) (stableSort bucketLe0 pool).length
          (stableSort bucketLe0 pool) assigned0 load0 (pool.length * (n + 1)) d.name
          rfl hfuel
        have hcnt : (stableSort bucketLe0 pool).countP (fun q => q.dev.name == d.name) =
            pool.countP (fun q => q.dev.name == d.name) :=
          (stableSort_perm bucketLe0 pool).countP_eq _
        rw [hcnt, hinit] at hlow
        have hle := @eligible_le_validated_add_pool developers ra exclusions km
          team_mode history d hnodup hd
        rw [← hpool] at hle
        have hmin : min (n + 1) (((alGet ra d.name).getD []).length +
            pool.countP (fun q => q.dev.name == d.name)) = n + 1 := by
          omega
        rw [hmin] at hlow
        dsimp only
        omega

/-- Soundness of the validated requirement map at the assign_reviewers call
sites: every validated (dn, r) passed the self, exclusion, reviewer-lookup
and knowledge checks. -/
theorem validated_requirements_sound {developers : List Developer}
    {exclusions : List (String × String)} {km : KnowledgeMode}
    {requirements : List (String × List String)} {dn r : String}
    (hr : r ∈ (alGet (validated_requirements developers exclusions km requirements)
      dn).getD []) :
    r ≠ dn ∧ (dn, r) ∉ exclusions ∧
      ∃ rev, alGet (by_name (developers.filter (fun d => d.can_review))) r =
        some rev ∧ is_valid_knowledge_pair
          ((alGet (by_name developers) dn).getD rev) rev km = true := by
  unfold validated_requirements at hr
  cases hget : alGet (validate_and_process_requirements requirements
      (by_name developers) (by_name (developers.filter (fun d => d.can_review)))
      exclusions km).1 dn with
  | none =>
    rw [hget] at hr
    cases hr
  | some lst =>
    rw [hget] at hr
    simp only [Option.getD_some] at hr
    unfold validate_and_process_requirements at hget
    have hsound := vapr_sound (by_name developers)
      (by_name (developers.filter (fun d => d.can_review))) exclusions km
      requirements ([], [], []) (by
        intro dn2 lst2 hget2
        simp [alGet] at hget2) dn lst hget r hr
    obtain ⟨dev, hdev, hok⟩ := hsound
    obtain ⟨h1, h2, rev, h3, h4⟩ := hok
    refine ⟨h1, h2, rev, h3, ?_⟩
    rw [hdev]
    simpa using h4

/-- Required reviewers survive into the final bucket-mode reviewer lists. -/
theorem bucket_keeps_required {developers : List Developer} {history : History}
    {num : Nat} {team_mode : Bool} {km : KnowledgeMode}
    {exclusions : List (String × String)}
    {requirements : List (String × List String)} :
    ∀ d2 ∈ (assign_reviewers_bucket developers history num team_mode km exclusions
      requirements).1,
    ∀ r ∈ (alGet (validated_requirements developers exclusions km requirements)
      d2.name).getD [], r ∈ d2.reviewers := by
  intro d2 hd2 r hr
  unfold assign_reviewers_bucket at hd2
  by_cases hre : (developers.filter (fun d => d.can_review)).isEmpty = true
  · exfalso
    obtain ⟨_, _, rev, hrev, _⟩ := validated_requirements_sound hr
    rw [List.isEmpty_iff] at hre
    rw [hre] at hrev
    simp [by_name, alGet] at hrev
  · rw [if_neg hre] at hd2
    simp only at hd2
    unfold validated_requirements at hr
    by_cases hap : (build_all_pairs developers
        (developers.filter (fun d => d.can_review))
        (validate_and_process_requirements requirements (by_name developers)
          (by_name (developers.filter (fun d => d.can_review))) exclusions km).1
        exclusions km team_mode history).isEmpty = true
    · rw [if_pos hap] at hd2
      obtain ⟨d, hd, rfl⟩ := List.mem_map.mp hd2
      exact hr
    · rw [if_neg hap] at hd2
      obtain ⟨d, hd, rfl⟩ := List.mem_map.mp hd2
      show r ∈ (alGet ((greedy_assign num _ _ _ _).1) d.name).getD []
      obtain ⟨t, ht⟩ := greedy_assign_getD_append num
        ((build_all_pairs developers (developers.filter (fun d => d.can_review))
          (validate_and_process_requirements requirements (by_name developers)
            (by_name (developers.filter (fun d => d.can_review))) exclusions
            km).1 exclusions km team_mode history).length * num)
        (stableSort bucketLe0
          (build_all_pairs developers (developers.filter (fun d => d.can_review))
            (validate_and_process_requirements requirements (by_name developers)
              (by_name (developers.filter (fun d => d.can_review))) exclusions
              km).1 exclusions km team_mode history))
        (developers.foldl (fun m d => if alMem m d.name then m else alSet m d.name [])
          (validate_and_process_requirements requirements (by_name developers)
            (by_name (developers.filter (fun d => d.can_review))) exclusions km).1)
        (fun n => if n ∈ (validate_and_process_requirements requirements
          (by_name developers)
          (by_name (developers.filter (fun d => d.can_review))) exclusions
          km).2.1 then 1 else 0) d.name
      rw [ht, alGet_fill_getD]
      exact List.mem_append_left t hr

/-- Every reviewer name in a final bucket-mode list avoids self-pairs and
excluded pairs. -/
theorem bucket_mem_safe {developers : List Developer} {history : History}
    {num : Nat} {team_mode : Bool} {km : KnowledgeMode}
    {exclusions : List (String × String)}
    {requirements : List (String × List String)} :
    ∀ d2 ∈ (assign_reviewers_bucket developers history num team_mode km exclusions
      requirements).1,
    ∀ r ∈ d2.reviewers, r ≠ d2.name ∧ (d2.name, r) ∉ exclusions := by
  intro d2 hd2 r hr
  unfold assign_reviewers_bucket at hd2
  by_cases hre : (developers.filter (fun d => d.can_review)).isEmpty = true
  · rw [if_pos hre] at hd2
    obtain ⟨d, hd, rfl⟩ := List.mem_map.mp hd2
    cases hr
  · rw [if_neg hre] at hd2
    simp only at hd2
    by_cases hap : (build_all_pairs developers
        (developers.filter (fun d => d.can_review))
        (validate_and_process_requirements requirements (by_name developers)
          (by_name (developers.filter (fun d => d.can_review))) exclusions km).1
        exclusions km team_mode history).isEmpty = true
    · rw [if_pos hap] at hd2
      obtain ⟨d, hd, rfl⟩ := List.mem_map.mp hd2
      have hval : r ∈ (alGet (validated_requirements developers exclusions km
          requirements) d.name).getD [] := hr
      obtain ⟨h1, h2, _⟩ := validated_requirements_sound hval
      exact ⟨h1, h2⟩
    · rw [if_neg hap] at hd2
      obtain ⟨d, hd, rfl⟩ := List.mem_map.mp hd2
      have hsrc := greedy_assign_mem_source num _ _ _ _ d.name r hr
      rcases hsrc with hsrc | ⟨p, hp, hpd, hpr⟩
      · rw [alGet_fill_getD] at hsrc
        have hval : r ∈ (alGet (validated_requirements developers exclusions km
            requirements) d.name).getD [] := hsrc
        obtain ⟨h1, h2, _⟩ := validated_requirements_sound hval
        exact ⟨h1, h2⟩
      · rw [mem_stableSort] at hp
        obtain ⟨_, _, hne, _, hexc, _⟩ := build_all_pairs_sound hp
        rw [hpd] at hne hexc
        rw [← hpr]
        exact ⟨fun h => hne h.symm, hexc⟩

/-! ### select_reviewers lemmas (per-developer strategy) -/

theorem get_knowledge_filter_eq (km : KnowledgeMode) (dev c : Developer) :
    get_knowledge_filter km dev c = is_valid_knowledge_pair dev c km := by
  cases km <;> rfl

theorem alGet_mem {α : Type} {m : List (String × α)} {k : String} {v : α}
    (h : alGet m k = some v) : (k, v) ∈ m := by
  induction m with
  | nil => cases h
  | cons p rest ih =>
    obtain ⟨k2, v2⟩ := p
    unfold alGet at h
    by_cases he : k2 = k
    · rw [if_pos he] at h
      injection h with h
      subst h
      subst he
      exact List.mem_cons_self _ _
    · rw [if_neg he] at h
      exact List.mem_cons_of_mem _ (ih h)

theorem sel_candidates2_sub {dev : Developer} {candidates : List Developer}
    {exclusions : List (String × String)} {c : Developer}
    (hc : c ∈ sel_candidates2 dev candidates exclusions) :
    c ∈ sel_candidates1 dev candidates := by
  unfold sel_candidates2 at hc
  split at hc
  · exact List.mem_of_mem_filter hc
  · exact hc

theorem sel_candidates3_sub {dev : Developer} {candidates : List Developer}
    {exclusions : List (String × String)}
    {requirements : List (String × List String)} {c : Developer}
    (hc : c ∈ sel_candidates3 dev candidates exclusions requirements) :
    c ∈ sel_candidates2 dev candidates exclusions := by
  unfold sel_candidates3 at hc
  split at hc
  · exact List.mem_of_mem_filter hc
  · exact hc

theorem sel_filtered_sub {dev : Developer} {candidates : List Developer}
    {exclusions : List (String × String)}
    {requirements : List (String × List String)} {km : KnowledgeMode}
    {c : Developer}
    (hc : c ∈ sel_filtered dev candidates exclusions requirements km) :
    c ∈ sel_candidates3 dev candidates exclusions requirements := by
  unfold sel_filtered at hc
  split at hc
  · exact List.mem_of_mem_filter hc
  · exact hc

theorem sel_candidates2_not_excluded {dev : Developer}
    {candidates : List Developer} {exclusions : List (String × String)}
    {c : Developer} (hc : c ∈ sel_candidates2 dev candidates exclusions) :
    (dev.name, c.name) ∉ exclusions := by
  intro hmem
  have hxin : c.name ∈ sel_excluded_reviewers dev exclusions := by
    unfold sel_excluded_reviewers
    rw [List.mem_map]
    exact ⟨(dev.name, c.name), List.mem_filter.mpr ⟨hmem, by simp⟩, rfl⟩
  have hxne : ¬ (sel_excluded_reviewers dev exclusions).isEmpty = true := by
    rw [List.isEmpty_iff]
    intro heq
    rw [heq] at hxin
    cases hxin
  unfold sel_candidates2 at hc
  rw [if_pos hxne] at hc
  have := (List.mem_filter.mp hc).2
  rw [decide_eq_true_eq] at this
  exact this hxin

theorem sel_candidates3_not_required {dev : Developer}
    {candidates : List Developer} {exclusions : List (String × String)}
    {requirements : List (String × List String)} {c : Developer}
    (hc : c ∈ sel_candidates3 dev candidates exclusions requirements) :
    c.name ∉ (alGet requirements dev.name).getD [] := by
  unfold sel_candidates3 at hc
  split at hc
  · have := (List.mem_filter.mp hc).2
    simpa using this
  · rename_i hempty
    rw [not_not, List.isEmpty_iff] at hempty
    rw [hempty]
    simp

/-- Anything selected by select_reviewers is a candidate name distinct from
the developer, not excluded for it, and not among its raw required names. -/
theorem select_reviewers_mem {dev : Developer} {candidates : List Developer}
    {history : History} {num : Nat} {team_mode : Bool} {ca : String → Nat}
    {km : KnowledgeMode} {exclusions : List (String × String)}
    {requirements : List (String × List String)} {balance_mode : Bool} {r : String}
    (hr : r ∈ (select_reviewers dev candidates history num team_mode ca km
      exclusions requirements balance_mode).1) :
    (∃ c ∈ candidates, c.name = r) ∧ r ≠ dev.name ∧
      (dev.name, r) ∉ exclusions ∧
      r ∉ (alGet requirements dev.name).getD [] := by
  unfold select_reviewers at hr
  split at hr
  · cases hr
  split at hr
  · cases hr
  split at hr
  · cases hr
  split at hr
  · split at hr
    · cases hr
    split at hr
    · cases hr
    · cases hr
  · simp only at hr
    obtain ⟨c, hc, rfl⟩ := List.mem_map.mp hr
    have hc2 := List.mem_of_mem_take hc
    unfold sel_sorted at hc2
    rw [mem_stableSort] at hc2
    have h3 := sel_filtered_sub hc2
    have h2 := sel_candidates3_sub h3
    have h1 := sel_candidates2_sub h2
    obtain ⟨hcand, hne⟩ := List.mem_filter.mp h1
    rw [decide_eq_true_eq] at hne
    exact ⟨⟨c, hcand, rfl⟩, hne, sel_candidates2_not_excluded h2,
      sel_candidates3_not_required h3⟩

theorem eligible_mem_facts {developers : List Developer}
    {exclusions : List (String × String)} {km : KnowledgeMode} {dev c : Developer}
    (hc : c ∈ eligible_reviewers developers exclusions km dev) :
    c ∈ developers ∧ c.can_review = true ∧ c.name ≠ dev.name ∧
      (dev.name, c.name) ∉ exclusions ∧
      is_valid_knowledge_pair dev c km = true := by
  unfold eligible_reviewers at hc
  obtain ⟨hmem, hcond⟩ := List.mem_filter.mp hc
  rw [Bool.and_eq_true, Bool.and_eq_true, Bool.and_eq_true] at hcond
  obtain ⟨⟨⟨hcan, hne⟩, hexc⟩, hvk⟩ := hcond
  rw [decide_eq_true_eq] at hne hexc
  exact ⟨hmem, hcan, hne, hexc, hvk⟩

theorem eligible_mem_cand1 {developers : List Developer}
    {exclusions : List (String × String)} {km : KnowledgeMode} {dev c : Developer}
    (hc : c ∈ eligible_reviewers developers exclusions km dev) :
    c ∈ sel_candidates1 dev (developers.filter (fun d => d.can_review)) := by
  obtain ⟨hmem, hcan, hne, _, _⟩ := eligible_mem_facts hc
  unfold sel_candidates1
  exact List.mem_filter.mpr ⟨List.mem_filter.mpr ⟨hmem, hcan⟩, by simpa using hne⟩

theorem eligible_mem_cand2 {developers : List Developer}
    {exclusions : List (String × String)} {km : KnowledgeMode} {dev c : Developer}
    (hc : c ∈ eligible_reviewers developers exclusions km dev) :
    c ∈ sel_candidates2 dev (developers.filter (fun d => d.can_review)) exclusions := by
  obtain ⟨hmem, hcan, hne, hexc, _⟩ := eligible_mem_facts hc
  unfold sel_candidates2
  split
  · refine List.mem_filter.mpr ⟨eligible_mem_cand1 hc, ?_⟩
    rw [decide_eq_true_eq]
    intro hin
    unfold sel_excluded_reviewers at hin
    rw [List.mem_map] at hin
    obtain ⟨p, hp, hsnd⟩ := hin
    obtain ⟨hpmem, hfst⟩ := List.mem_filter.mp hp
    rw [decide_eq_true_eq] at hfst
    have : p = (dev.name, c.name) := Prod.ext hfst hsnd
    rw [this] at hpmem
    exact hexc hpmem
  · exact eligible_mem_cand1 hc

theorem eligible_mem_cand3 {developers : List Developer}
    {exclusions : List (String × String)} {km : KnowledgeMode}
    {requirements : List (String × List String)} {dev c : Developer}
    (hc : c ∈ eligible_reviewers developers exclusions km dev)
    (hnr : c.name ∉ (alGet requirements dev.name).getD []) :
    c ∈ sel_candidates3 dev (developers.filter (fun d => d.can_review)) exclusions
      requirements := by
  unfold sel_candidates3
  split
  · exact List.mem_filter.mpr ⟨eligible_mem_cand2 hc, by simpa using hnr⟩
  · exact eligible_mem_cand2 hc

theorem eligible_mem_filtered {developers : List Developer}
    {exclusions : List (String × String)} {km : KnowledgeMode}
    {requirements : List (String × List String)} {dev c : Developer}
    (hc : c ∈ eligible_reviewers developers exclusions km dev)
    (hnr : c.name ∉ (alGet requirements dev.name).getD []) :
    c ∈ sel_filtered dev (developers.filter (fun d => d.can_review)) exclusions
      requirements km := by
  obtain ⟨_, _, _, _, hvk⟩ := eligible_mem_facts hc
  unfold sel_filtered
  split
  · refine List.mem_filter.mpr ⟨eligible_mem_cand3 hc hnr, ?_⟩
    rw [get_knowledge_filter_eq]
    exact hvk
  · exact eligible_mem_cand3 hc hnr

theorem eligible_raw_in_validated {developers : List Developer}
    {exclusions : List (String × String)} {km : KnowledgeMode}
    {requirements : List (String × List String)} {dev c : Developer}
    (hnodup : (developers.map Developer.name).Nodup)
    (hkeys : (requirements.map Prod.fst).Nodup)
    (hd : dev ∈ developers)
    (hc : c ∈ eligible_reviewers developers exclusions km dev)
    (hr : c.name ∈ (alGet requirements dev.name).getD []) :
    c.name ∈ (alGet (validated_requirements developers exclusions km requirements)
      dev.name).getD [] := by
  obtain ⟨hmem, hcan, hne, hexc, hvk⟩ := eligible_mem_facts hc
  cases hraw : alGet requirements dev.name with
  | none =>
    rw [hraw] at hr
    cases hr
  | some lst =>
    rw [hraw] at hr
    simp only [Option.getD_some] at hr
    have hentry : (dev.name, lst) ∈ requirements := alGet_mem hraw
    have hdevlook : alGet (by_name developers) dev.name = some dev :=
      alGet_by_name_of_nodup hnodup hd
    have hrevnodup : ((developers.filter (fun d => d.can_review)).map
        Developer.name).Nodup :=
      List.Nodup.sublist (List.Sublist.map _ (List.filter_sublist developers)) hnodup
    have hrevlook : alGet (by_name (developers.filter (fun d => d.can_review)))
        c.name = some c :=
      alGet_by_name_of_nodup hrevnodup (List.mem_filter.mpr ⟨hmem, hcan⟩)
    unfold validated_requirements validate_and_process_requirements
    exact vapr_complete (by_name developers)
      (by_name (developers.filter (fun d => d.can_review))) exclusions km
      requirements dev.name lst c.name dev ([], [], []) hkeys hentry hdevlook hr
      ⟨hne, hexc, c, hrevlook, hvk⟩

theorem select_plus_required_ge {developers : List Developer} {history : History}
    {num : Nat} {team_mode balance_mode : Bool} {km : KnowledgeMode}
    {exclusions : List (String × String)}
    {requirements : List (String × List String)} {ca : String → Nat}
    {dev : Developer}
    (hnodup : (developers.map Developer.name).Nodup)
    (hkeys : (requirements.map Prod.fst).Nodup)
    (hd : dev ∈ developers)
    (helig : num ≤ (eligible_reviewers developers exclusions km dev).length) :
    num ≤ ((alGet (validated_requirements developers exclusions km requirements)
      dev.name).getD []).length +
      ((select_reviewers dev (developers.filter (fun d => d.can_review)) history
        num team_mode ca km exclusions requirements balance_mode).1).length := by
  set E := eligible_reviewers developers exclusions km dev with hE
  set raw := (alGet requirements dev.name).getD [] with hraw
  set pIn : Developer → Bool := fun c => decide (c.name ∈ raw) with hpIn
  have hsplitsum : E.length = (E.filter pIn).length +
      (E.filter (fun c => !(pIn c))).length := by
    rw [← List.countP_eq_length_filter, ← List.countP_eq_length_filter]
    rw [List.length_eq_countP_add_countP pIn]
    congr 1
    refine List.countP_congr ?_
    intro c _
    cases h : pIn c <;> simp [h]
  have hEnodupNames : (E.map Developer.name).Nodup := by
    rw [hE]
    unfold eligible_reviewers
    exact List.Nodup.sublist (List.Sublist.map _ (List.filter_sublist developers))
      hnodup
  have hn1 : (E.filter pIn).length ≤
      ((alGet (validated_requirements developers exclusions km requirements)
        dev.name).getD []).length := by
    have hh : ((E.filter pIn).map Developer.name).length ≤
        ((alGet (validated_requirements developers exclusions km requirements)
          dev.name).getD []).length := nodup_subset_length
      (List.Nodup.sublist (List.Sublist.map _ (List.filter_sublist E))
        hEnodupNames)
      (by
        intro x hx
        rw [List.mem_map] at hx
        obtain ⟨c, hcf, rfl⟩ := hx
        obtain ⟨hcE, hcP⟩ := List.mem_filter.mp hcf
        rw [hpIn, decide_eq_true_eq] at hcP
        exact eligible_raw_in_validated hnodup hkeys hd hcE hcP)
    rw [List.length_map] at hh
    exact hh
  have hn2 : (E.filter (fun c => !(pIn c))).length ≤
      (sel_filtered dev (developers.filter (fun d => d.can_review)) exclusions
        requirements km).length := by
    refine nodup_subset_length ?_ ?_
    · exact List.Nodup.of_map Developer.name
        (List.Nodup.sublist (List.Sublist.map _ (List.filter_sublist E))
          hEnodupNames)
    · intro c hcf
      obtain ⟨hcE, hcP⟩ := List.mem_filter.mp hcf
      have hnr : c.name ∉ raw := by simpa [hpIn] using hcP
      exact eligible_mem_filtered hcE hnr
  unfold select_reviewers
  split
  · rename_i hcond
    rw [List.isEmpty_iff] at hcond
    have hE0 : E = [] := by
      cases hEe : E with
      | nil => rfl
      | cons c rest =>
        exfalso
        have : c ∈ E := by rw [hEe]; exact List.mem_cons_self c rest
        have := eligible_mem_cand1 (hE ▸ this)
        rw [hcond] at this
        cases this
    rw [hE0] at helig
    simp only [List.length_nil, Nat.le_zero] at helig
    omega
  split
  · rename_i hcond
    obtain ⟨hc1, hc2⟩ := hcond
    rw [List.isEmpty_iff] at hc2
    have hE0 : E = [] := by
      cases hEe : E with
      | nil => rfl
      | cons c rest =>
        exfalso
        have : c ∈ E := by rw [hEe]; exact List.mem_cons_self c rest
        have hm2 := eligible_mem_cand2 (hE ▸ this)
        rw [hc2] at hm2
        cases hm2
    rw [hE0] at helig
    simp only [List.length_nil, Nat.le_zero] at helig
    omega
  split
  · rename_i hcond
    rw [List.isEmpty_iff] at hcond
    have hf0 : E.filter (fun c => !(pIn c)) = [] := by
      rw [List.filter_eq_nil_iff]
      intro c hcE hcP
      have hnr : c.name ∉ raw := by simpa [hpIn] using hcP
      have hmem3 := eligible_mem_cand3 (hE ▸ hcE) hnr
      rw [hcond] at hmem3
      cases hmem3
    rw [hf0] at hsplitsum
    simp only [List.length_nil, Nat.add_zero] at hsplitsum
    dsimp only
    omega
  split
  · rename_i hcond
    obtain ⟨hc1, hc2⟩ := hcond
    rw [List.isEmpty_iff] at hc2
    have hf0 : E.filter (fun c => !(pIn c)) = [] := by
      rw [List.filter_eq_nil_iff]
      intro c hcE hcP
      have hnr : c.name ∉ raw := by simpa [hpIn] using hcP
      have hmemf := eligible_mem_filtered (hE ▸ hcE) hnr
      rw [hc2] at hmemf
      cases hmemf
    rw [hf0] at hsplitsum
    simp only [List.length_nil, Nat.add_zero] at hsplitsum
    split
    · dsimp only
      omega
    · split
      · dsimp only
        omega
      · dsimp only
        omega
  · dsimp only
    rw [List.length_map, List.length_take]
    unfold sel_sorted
    rw [length_stableSort]
    omega

/-! ### Non-balanced fold lemmas -/

theorem alGet_of_mem_nodup {α : Type} {m : List (String × α)} {k : String} {v : α}
    (hnd : (m.map Prod.fst).Nodup) (hmem : (k, v) ∈ m) : alGet m k = some v := by
  induction m with
  | nil => cases hmem
  | cons p rest ih =>
    simp only [List.map_cons, List.nodup_cons] at hnd
    rcases List.mem_cons.mp hmem with heq | hmem2
    · rw [← heq]
      unfold alGet
      rw [if_pos rfl]
    · obtain ⟨k2, v2⟩ := p
      have hne : k2 ≠ k := by
        intro h
        subst h
        exact hnd.1 (List.mem_map.mpr ⟨(k2, v), hmem2, rfl⟩)
      unfold alGet
      rw [if_neg hne]
      exact ih hnd.2 hmem2

theorem validated_sub_raw {developers : List Developer}
    {exclusions : List (String × String)} {km : KnowledgeMode}
    {requirements : List (String × List String)} {dn r : String}
    (hkeys : (requirements.map Prod.fst).Nodup)
    (hr : r ∈ (alGet (validated_requirements developers exclusions km requirements)
      dn).getD []) :
    r ∈ (alGet requirements dn).getD [] := by
  unfold validated_requirements validate_and_process_requirements at hr
  cases hget : alGet ((requirements.foldl (vaprStep (by_name developers)
      (by_name (developers.filter (fun d => d.can_review))) exclusions km)
      ([], [], []))).1 dn with
  | none =>
    rw [hget] at hr
    cases hr
  | some lst =>
    rw [hget] at hr
    simp only [Option.getD_some] at hr
    rcases vapr_origin (by_name developers)
      (by_name (developers.filter (fun d => d.can_review))) exclusions km
      requirements ([], [], []) dn lst hget with ⟨e, he, hfst, hsub⟩ | habs
    · obtain ⟨k2, v2⟩ := e
      simp only at hfst
      subst hfst
      rw [alGet_of_mem_nodup hkeys he]
      exact hsub r hr
    · simp [alGet] at habs

/-- The reviewer list given to one developer by the non-balanced loop
(empty when there are no available reviewers, otherwise required reviewers
first, then the selection, truncated to the quota). -/
theorem nonBalancedStep_shape (reviewers : List Developer) (num : Nat)
    (team_mode : Bool) (km : KnowledgeMode) (exclusions : List (String × String))
    (requirements : List (String × List String))
    (ra : List (String × List String))
    (st : List Developer × (String → Nat) × History × List String)
    (d : Developer) :
    ∃ newRevs,
      (nonBalancedStep reviewers num team_mode km exclusions requirements ra st
        d).1 = st.1 ++ [{ d with reviewers := newRevs }] ∧
      ((newRevs = [] ∧ reviewers.isEmpty = true) ∨
        ∃ (ca : String → Nat) (h : History),
          newRevs = ((alGet ra d.name).getD [] ++
            ((select_reviewers d reviewers h num team_mode ca km exclusions
              requirements false).1).filter
              (fun s => s ∉ (alGet ra d.name).getD [])).take num) := by
  obtain ⟨done, ca, h, warns⟩ := st
  by_cases hre : reviewers.isEmpty = true
  · refine ⟨[], ?_, Or.inl ⟨rfl, hre⟩⟩
    simp [nonBalancedStep, hre]
  · refine ⟨((alGet ra d.name).getD [] ++
      ((select_reviewers d reviewers h num team_mode ca km exclusions
        requirements false).1).filter
        (fun s => s ∉ (alGet ra d.name).getD [])).take num, ?_,
      Or.inr ⟨ca, h, rfl⟩⟩
    simp [nonBalancedStep, hre]

theorem nonbalanced_fold_pred (reviewers : List Developer) (num : Nat)
    (team_mode : Bool) (km : KnowledgeMode) (exclusions : List (String × String))
    (requirements : List (String × List String))
    (ra : List (String × List String)) (P : Developer → Prop)
    (devsRest : List Developer) :
    ∀ (st : List Developer × (String → Nat) × History × List String),
    (∀ d2 ∈ st.1, P d2) →
    (∀ d ∈ devsRest, ∀ (newRevs : List String),
      ((newRevs = [] ∧ reviewers.isEmpty = true) ∨
        ∃ (ca : String → Nat) (h : History),
          newRevs = ((alGet ra d.name).getD [] ++
            ((select_reviewers d reviewers h num team_mode ca km exclusions
              requirements false).1).filter
              (fun s => s ∉ (alGet ra d.name).getD [])).take num) →
      P { d with reviewers := newRevs }) →
    ∀ d2 ∈ (devsRest.foldl (nonBalancedStep reviewers num team_mode km exclusions
      requirements ra) st).1, P d2 := by
  induction devsRest with
  | nil =>
    intro st hst _ d2 hd2
    exact hst d2 hd2
  | cons d devsRest ih =>
    intro st hst hstep d2 hd2
    simp only [List.foldl_cons] at hd2
    refine ih _ ?_ (fun x hx => hstep x (List.mem_cons_of_mem d hx)) d2 hd2
    intro d3 hd3
    obtain ⟨newRevs, hshape, hcases⟩ := nonBalancedStep_shape reviewers num
      team_mode km exclusions requirements ra st d
    rw [hshape] at hd3
    rcases List.mem_append.mp hd3 with h1 | h1
    · exact hst d3 h1
    · have : d3 = { d with reviewers := newRevs } := by simpa using h1
      subst this
      exact hstep d (List.mem_cons_self d devsRest) newRevs hcases

/-! ### Claim theorems -/

/-- C6: for every developer D and every input (roster, history, exclusions,
requirements, any mode), after assign_reviewers completes, D.name does not
appear in D.reviewers — including when a requirement names the developer as
its own reviewer. -/
theorem C6_no_self_review (developers : List Developer) (history : History)
    (num : Nat) (team_mode : Bool) (km : KnowledgeMode)
    (exclusions : List (String × String))
    (requirements : List (String × List String)) (balance_mode : Bool) :
    ∀ d2 ∈ (assign_reviewers developers history num team_mode km exclusions
      requirements balance_mode).1, d2.name ∉ d2.reviewers := by
  intro d2 hd2 hself
  unfold assign_reviewers at hd2
  by_cases hbm : balance_mode = true
  · rw [if_pos hbm] at hd2
    exact (bucket_mem_safe d2 hd2 d2.name hself).1 rfl
  · rw [if_neg hbm] at hd2
    simp only at hd2
    refine nonbalanced_fold_pred _ num team_mode km exclusions requirements _
      (fun d3 => d3.name ∉ d3.reviewers) developers _ (by intro x hx; cases hx)
      ?_ d2 hd2 hself
    intro d hd newRevs hcase hmem
    rcases hcase with ⟨hnil, _⟩ | ⟨ca, h, hrv⟩
    · rw [hnil] at hmem
      cases hmem
    · rw [hrv] at hmem
      have hmem2 := List.mem_of_mem_take hmem
      rcases List.mem_append.mp hmem2 with h1 | h1
      · have h1b : d.name ∈ (alGet (validated_requirements developers exclusions km
            requirements) d.name).getD [] := h1
        exact (validated_requirements_sound h1b).1 rfl
      · have := select_reviewers_mem (List.mem_filter.mp h1).1
        exact this.2.1 rfl

/-- C5: for every ordered pair (dev, reviewer) in the exclusion set, reviewer
never appears in dev's final reviewers list after assign_reviewers, for all
rosters, histories, and modes. -/
theorem C5_exclusion_respected (developers : List Developer) (history : History)
    (num : Nat) (team_mode : Bool) (km : KnowledgeMode)
    (exclusions : List (String × String))
    (requirements : List (String × List String)) (balance_mode : Bool) :
    ∀ d2 ∈ (assign_reviewers developers history num team_mode km exclusions
      requirements balance_mode).1,
    ∀ r, (d2.name, r) ∈ exclusions → r ∉ d2.reviewers := by
  intro d2 hd2 r hx hmem
  unfold assign_reviewers at hd2
  by_cases hbm : balance_mode = true
  · rw [if_pos hbm] at hd2
    exact (bucket_mem_safe d2 hd2 r hmem).2 hx
  · rw [if_neg hbm] at hd2
    simp only at hd2
    refine nonbalanced_fold_pred _ num team_mode km exclusions requirements _
      (fun d3 => ∀ r2, (d3.name, r2) ∈ exclusions → r2 ∉ d3.reviewers)
      developers _ (by intro x hx2; cases hx2) ?_ d2 hd2 r hx hmem
    intro d hd newRevs hcase r2 hx2 hmem2
    rcases hcase with ⟨hnil, _⟩ | ⟨ca, h, hrv⟩
    · rw [hnil] at hmem2
      cases hmem2
    · rw [hrv] at hmem2
      have hmem3 := List.mem_of_mem_take hmem2
      rcases List.mem_append.mp hmem3 with h1 | h1
      · have h1b : r2 ∈ (alGet (validated_requirements developers exclusions km
            requirements) d.name).getD [] := h1
        exact (validated_requirements_sound h1b).2.1 hx2
      · have := select_reviewers_mem (List.mem_filter.mp h1).1
        exact this.2.2.1 hx2

theorem validated_requirements_def (developers : List Developer)
    (exclusions : List (String × String)) (km : KnowledgeMode)
    (requirements : List (String × List String)) :
    (validate_and_process_requirements requirements (by_name developers)
      (by_name (developers.filter (fun d => d.can_review))) exclusions km).1 =
    validated_requirements developers exclusions km requirements := rfl

/-- C4 (amended): every requirement entry that passes the eligibility checks
(i.e. survives validate_and_process_requirements) appears in the developer's
final reviewers list: unconditionally in balanced mode, and in non-balanced
mode provided the developer's validated required list has at most
num_reviewers entries (otherwise the final truncation to the quota can drop
required reviewers). -/
theorem C4_requirement_fulfilled (developers : List Developer)
    (history : History) (num : Nat) (team_mode : Bool) (km : KnowledgeMode)
    (exclusions : List (String × String))
    (requirements : List (String × List String)) (balance_mode : Bool)
    (hbound : balance_mode = false → ∀ n,
      ((alGet (validated_requirements developers exclusions km requirements)
        n).getD []).length ≤ num) :
    ∀ d2 ∈ (assign_reviewers developers history num team_mode km exclusions
      requirements balance_mode).1,
    ∀ r ∈ (alGet (validated_requirements developers exclusions km requirements)
      d2.name).getD [], r ∈ d2.reviewers := by
  intro d2 hd2 r hr
  unfold assign_reviewers at hd2
  by_cases hbm : balance_mode = true
  · rw [if_pos hbm] at hd2
    exact bucket_keeps_required d2 hd2 r hr
  · rw [if_neg hbm] at hd2
    simp only at hd2
    have hbm2 : balance_mode = false := by
      cases balance_mode with
      | true => exact absurd rfl hbm
      | false => rfl
    refine nonbalanced_fold_pred _ num team_mode km exclusions requirements _
      (fun d3 => ∀ r2 ∈ (alGet (validated_requirements developers exclusions km
        requirements) d3.name).getD [], r2 ∈ d3.reviewers)
      developers _ (by intro x hx2; cases hx2) ?_ d2 hd2 r hr
    intro d hd newRevs hcase r2 hr2
    rcases hcase with ⟨hnil, hre⟩ | ⟨ca, h, hrv⟩
    · exfalso
      obtain ⟨_, _, rev, hrev, _⟩ := validated_requirements_sound hr2
      rw [List.isEmpty_iff] at hre
      rw [hre] at hrev
      simp [by_name, alGet] at hrev
    · rw [validated_requirements_def] at hrv
      rw [hrv]
      rw [List.take_append_eq_append_take]
      refine List.mem_append_left _ ?_
      rw [List.take_of_length_le (hbound hbm2 d.name)]
      exact hr2

/-- C2 (amended): in both modes, every developer ends with at most
num_reviewers reviewers provided each validated required list has at most
num_reviewers entries (required assignments are never truncated in balanced
mode, so an over-quota requirement list violates the bound); and the quota is
met exactly whenever at least num_reviewers eligible (can_review,
non-excluded, knowledge-compatible, non-self) reviewers exist, given unique
roster names and unique requirement keys. -/
theorem C2_quota_bound (developers : List Developer) (history : History)
    (num : Nat) (team_mode : Bool) (km : KnowledgeMode)
    (exclusions : List (String × String))
    (requirements : List (String × List String)) (balance_mode : Bool)
    (hnodup : (developers.map Developer.name).Nodup)
    (hkeys : (requirements.map Prod.fst).Nodup)
    (hbound : ∀ n,
      ((alGet (validated_requirements developers exclusions km requirements)
        n).getD []).length ≤ num) :
    ∀ d2 ∈ (assign_reviewers developers history num team_mode km exclusions
      requirements balance_mode).1,
    d2.reviewers.length ≤ num ∧
      (num ≤ (eligible_reviewers developers exclusions km d2).length →
        d2.reviewers.length = num) := by
  intro d2 hd2
  unfold assign_reviewers at hd2
  by_cases hbm : balance_mode = true
  · rw [if_pos hbm] at hd2
    exact bucket_quota hnodup hbound d2 hd2
  · rw [if_neg hbm] at hd2
    simp only at hd2
    refine nonbalanced_fold_pred _ num team_mode km exclusions requirements _
      (fun d3 => d3.reviewers.length ≤ num ∧
        (num ≤ (eligible_reviewers developers exclusions km d3).length →
          d3.reviewers.length = num))
      developers _ (by intro x hx2; cases hx2) ?_ d2 hd2
    intro d hd newRevs hcase
    rcases hcase with ⟨hnil, hre⟩ | ⟨ca, h, hrv⟩
    · subst hnil
      refine ⟨Nat.zero_le num, ?_⟩
      intro helig
      rw [eligible_reviewers_update, eligible_nil_of_no_reviewers hre] at helig
      simp only [List.length_nil, Nat.le_zero] at helig
      simp [helig]
    · rw [validated_requirements_def] at hrv
      constructor
      · rw [hrv]
        dsimp only
        rw [List.length_take]
        omega
      · intro helig
        rw [eligible_reviewers_update] at helig
        have hge := @select_plus_required_ge developers h num team_mode false km
          exclusions requirements ca d hnodup hkeys hd helig
        have hfilt : (((select_reviewers d
            (developers.filter (fun d => d.can_review)) h num team_mode ca km
            exclusions requirements false).1).filter
            (fun s => s ∉ (alGet (validated_requirements developers exclusions km
              requirements) d.name).getD [])).length =
            ((select_reviewers d (developers.filter (fun d => d.can_review)) h num
              team_mode ca km exclusions requirements false).1).length := by
          congr 1
          rw [List.filter_eq_self]
          intro s hs
          rw [decide_eq_true_eq]
          intro hmem
          exact (select_reviewers_mem hs).2.2.2 (validated_sub_raw hkeys hmem)
        rw [hrv]
        dsimp only
        rw [List.length_take, List.length_append]
        have := hbound d.name
        rw [hfilt]
        omega

/-- C1: if any (developer, reviewer) pair appears both in the requirement map
and in the exclusion set, the run raises a fatal error carrying the conflict
report computed up front from the whole requirement map against the whole
exclusion set, and aborts before any assignment work or History mutation
(the error carries no updated roster or history). The run driver is modelled
from the spec; check_conflicts is the source function. -/
theorem C1_conflict_fatal (developers : List Developer) (history : History)
    (num : Nat) (team_mode : Bool) (km : KnowledgeMode)
    (exclusions : List (String × String))
    (requirements : List (String × List String)) (balance_mode : Bool)
    (dn r : String) (lst : List String)
    (hentry : (dn, lst) ∈ requirements) (hr : r ∈ lst)
    (hx : (dn, r) ∈ exclusions) :
    run_with_requirements developers history num team_mode km exclusions
      requirements balance_mode =
      Except.error (check_conflicts requirements exclusions) ∧
    check_conflicts requirements exclusions ≠ [] := by
  have hmsg : ("Conflict: \x27" ++ dn ++ ":" ++ r ++
      "\x27 is both required and excluded") ∈
      check_conflicts requirements exclusions := by
    unfold check_conflicts
    rw [List.mem_flatMap]
    refine ⟨(dn, lst), hentry, ?_⟩
    rw [List.mem_map]
    exact ⟨r, List.mem_filter.mpr ⟨hr, by simpa using hx⟩, rfl⟩
  have hne : check_conflicts requirements exclusions ≠ [] :=
    List.ne_nil_of_mem hmsg
  refine ⟨?_, hne⟩
  unfold run_with_requirements
  rw [if_neg ?_]
  rw [List.isEmpty_iff]
  exact hne

/-- C8: the knowledge-mode predicate accepts everyone under anyone; under
experts-only it accepts exactly reviewers of level at least 4; under
mentorship it accepts a reviewer iff a novice developer (level at most 2)
gets an expert; under similar-levels it accepts everyone (level distance
affects only sort order). -/
theorem C8_knowledge_mode_predicate (dev reviewer : Developer) :
    is_valid_knowledge_pair dev reviewer .anyone = true ∧
    (is_valid_knowledge_pair dev reviewer .expertsOnly = true ↔
      4 ≤ reviewer.knowledge_level) ∧
    (is_valid_knowledge_pair dev reviewer .mentorship = true ↔
      (dev.knowledge_level ≤ 2 → 4 ≤ reviewer.knowledge_level)) ∧
    is_valid_knowledge_pair dev reviewer .similarLevels = true := by
  refine ⟨rfl, ?_, ?_, rfl⟩
  · simp [is_valid_knowledge_pair, is_expert, EXPERT_MIN_LEVEL]
  · by_cases hn : dev.knowledge_level ≤ 2
    · simp [is_valid_knowledge_pair, is_novice, is_expert, NOVICE_MAX_LEVEL,
        EXPERT_MIN_LEVEL, hn]
    · simp [is_valid_knowledge_pair, is_novice, is_expert, NOVICE_MAX_LEVEL,
        EXPERT_MIN_LEVEL, hn]

/-- C9: the bucket-mode greedy loop is insensitive to any iteration budget of
at least the pool size: each iteration removes exactly one pair from the
pool, so the loop exhausts the pool within pool_size iterations and the
budget pool_size * num_reviewers used by assign_reviewers_bucket (with
num_reviewers at least 1; with 0 the loop is allowed no iterations) always
suffices — the greedy assignment is a total function of its inputs. -/
theorem C9_greedy_loop_terminates (num : Nat) (pairs : List PairEntry)
    (assigned : List (String × List String)) (load : String → Nat) (fuel : Nat)
    (hfuel : pairs.length ≤ fuel) :
    greedy_assign num fuel pairs assigned load =
      greedy_assign num pairs.length pairs assigned load :=
  greedy_assign_fuel_stable num pairs.length pairs assigned load fuel
    pairs.length rfl hfuel (Nat.le_refl _)

/-- C10: select_reviewers is effect-free: threading the mutable environment
(the Developer objects, the history ledger and the in-pass load counters)
through each statement returns it unchanged, and the produced value is
exactly the pure selection — load-counter and History updates happen only in
the callers. -/
theorem C10_select_reviewers_pure (s : SelState) (num : Nat) (team_mode : Bool)
    (km : KnowledgeMode) (exclusions : List (String × String))
    (requirements : List (String × List String)) (balance_mode : Bool) :
    select_reviewersS s num team_mode km exclusions requirements balance_mode =
      (s, select_reviewers s.dev s.candidates s.history num team_mode
        s.current_assignments km exclusions requirements balance_mode) := by
  unfold select_reviewersS select_reviewers
  dsimp only
  split
  · rfl
  · split
    · rfl
    · split
      · rfl
      · split
        · split
          · rfl
          · split
            · rfl
            · rfl
        · rfl

/-- C3: the balanced-mode greedy assignment violates the claimed load spread
bound already on the roster of the repository's own balance test
(3 mutually-eligible developers, empty history, num_reviewers=1, balance
mode): Alice ends with load 2 and Charlie with load 0, a spread of 2. -/
theorem C3_spread_two_on_test_roster :
    ((assign_reviewers
      [{ name := "Alice", can_review := true },
       { name := "Bob", can_review := true },
       { name := "Charlie", can_review := true }] {} 1 false KnowledgeMode.anyone
      [] [] true).1.map (fun d => d.reviewers)) = [["Bob"], ["Alice"], ["Alice"]] ∧
    reviewer_load (assign_reviewers
      [{ name := "Alice", can_review := true },
       { name := "Bob", can_review := true },
       { name := "Charlie", can_review := true }] {} 1 false KnowledgeMode.anyone
      [] [] true).1 "Alice" = 2 ∧
    reviewer_load (assign_reviewers
      [{ name := "Alice", can_review := true },
       { name := "Bob", can_review := true },
       { name := "Charlie", can_review := true }] {} 1 false KnowledgeMode.anyone
      [] [] true).1 "Charlie" = 0 := by
  decide

/-- C7: when the generated candidate pool is empty but validated required
assignments exist, the bucket strategy assigns the required reviewers to the
roster but returns before calling update_history, so the History records
nothing for the assignment that was made: with roster Alice, Bob, the
exclusion (Alice, Bob) and the requirement Bob -> Alice, Bob ends up with
reviewer Alice while History.pairs stays empty. -/
theorem C7_history_skipped_on_empty_pool :
    ((assign_reviewers
      [{ name := "Alice", can_review := true },
       { name := "Bob", can_review := true }] {} 1 false KnowledgeMode.anyone
      [("Alice", "Bob")] [("Bob", ["Alice"])] true).1.map (fun d => d.reviewers)) =
      [[], ["Alice"]] ∧
    get_pair_count (assign_reviewers
      [{ name := "Alice", can_review := true },
       { name := "Bob", can_review := true }] {} 1 false KnowledgeMode.anyone
      [("Alice", "Bob")] [("Bob", ["Alice"])] true).2.1 "Bob" "Alice" = 0 ∧
    (assign_reviewers
      [{ name := "Alice", can_review := true },
       { name := "Bob", can_review := true }] {} 1 false KnowledgeMode.anyone
      [("Alice", "Bob")] [("Bob", ["Alice"])] true).2.1.pairs = [] := by
  decide

/-- C2 counterexample: in balanced mode a developer with two validated
required reviewers and num_reviewers=1 ends the run with two reviewers, so
the unconditional quota bound of the original claim is false. -/
theorem C2_counterexample_over_quota :
    ((assign_reviewers
      [{ name := "Alice", can_review := true },
       { name := "Bob", can_review := true },
       { name := "Charlie", can_review := true }] {} 1 false KnowledgeMode.anyone
      [] [("Bob", ["Alice", "Charlie"])] true).1.map
        (fun d => d.reviewers.length)) = [1, 2, 1] ∧
    ¬ (∀ d2 ∈ (assign_reviewers
      [{ name := "Alice", can_review := true },
       { name := "Bob", can_review := true },
       { name := "Charlie", can_review := true }] {} 1 false KnowledgeMode.anyone
      [] [("Bob", ["Alice", "Charlie"])] true).1, d2.reviewers.length ≤ 1) := by
  decide

/-- C4 counterexample: in non-balanced mode the final truncation
final_selected[:num_reviewers] drops validated required reviewers beyond the
quota: Charlie is a validated required reviewer of Bob but is absent from
Bob's final list when num_reviewers=1. -/
theorem C4_counterexample_truncates_required :
    "Charlie" ∈ (alGet (validated_requirements
      [{ name := "Alice", can_review := true },
       { name := "Bob", can_review := true },
       { name := "Charlie", can_review := true }] [] KnowledgeMode.anyone
      [("Bob", ["Alice", "Charlie"])]) "Bob").getD [] ∧
    ¬ (∀ d2 ∈ (assign_reviewers
      [{ name := "Alice", can_review := true },
       { name := "Bob", can_review := true },
       { name := "Charlie", can_review := true }] {} 1 false KnowledgeMode.anyone
      [] [("Bob", ["Alice", "Charlie"])] false).1,
      ∀ r ∈ (alGet (validated_requirements
        [{ name := "Alice", can_review := true },
         { name := "Bob", can_review := true },
         { name := "Charlie", can_review := true }] [] KnowledgeMode.anyone
        [("Bob", ["Alice", "Charlie"])]) d2.name).getD [], r ∈ d2.reviewers) := by
  decide

theorem C1_conflict_fatal_witness :
    run_with_requirements
      [{ name := "Bob", can_review := true }, { name := "Alice", can_review := true }]
      {} 2 false KnowledgeMode.anyone [("Bob", "Alice")] [("Bob", ["Alice"])] true =
      Except.error (check_conflicts [("Bob", ["Alice"])] [("Bob", "Alice")]) ∧
    check_conflicts [("Bob", ["Alice"])] [("Bob", "Alice")] ≠ [] :=
  C1_conflict_fatal
    [{ name := "Bob", can_review := true }, { name := "Alice", can_review := true }]
    {} 2 false KnowledgeMode.anyone [("Bob", "Alice")] [("Bob", ["Alice"])] true
    "Bob" "Alice" ["Alice"] (by decide) (by decide) (by decide)

theorem C2_quota_bound_witness :
    (((assign_reviewers
      [{ name := "Alice", can_review := true }, { name := "Bob", can_review := true }]
      {} 1 false KnowledgeMode.anyone [] [] true).1.headD
      { name := "", can_review := false }).reviewers).length = 1 :=
  (C2_quota_bound
    [{ name := "Alice", can_review := true }, { name := "Bob", can_review := true }]
    {} 1 false KnowledgeMode.anyone [] [] true (by decide) (by decide)
    (fun n => Nat.zero_le 1) _ (by decide)).2 (by decide)

theorem C4_requirement_fulfilled_witness :
    "Alice" ∈ ((assign_reviewers
      [{ name := "Alice", can_review := true },
       { name := "Bob", can_review := true },
       { name := "Charlie", can_review := true }] {} 2 false KnowledgeMode.anyone
      [] [("Bob", ["Alice"])] true).1.getD 1
      { name := "", can_review := false }).reviewers :=
  C4_requirement_fulfilled
    [{ name := "Alice", can_review := true },
     { name := "Bob", can_review := true },
     { name := "Charlie", can_review := true }] {} 2 false KnowledgeMode.anyone
    [] [("Bob", ["Alice"])] true (fun h => Bool.noConfusion h) _ (by decide)
    "Alice" (by decide)

theorem C5_exclusion_respected_witness :
    "Bob" ∉ ((assign_reviewers
      [{ name := "Alice", can_review := true },
       { name := "Bob", can_review := true },
       { name := "Charlie", can_review := true }] {} 2 false KnowledgeMode.anyone
      [("Alice", "Bob")] [] true).1.headD
      { name := "", can_review := false }).reviewers :=
  C5_exclusion_respected
    [{ name := "Alice", can_review := true },
     { name := "Bob", can_review := true },
     { name := "Charlie", can_review := true }] {} 2 false KnowledgeMode.anyone
    [("Alice", "Bob")] [] true _ (by decide) "Bob" (by decide)

theorem C6_no_self_review_witness :
    ((assign_reviewers
      [{ name := "Alice", can_review := true }, { name := "Bob", can_review := true }]
      {} 1 false KnowledgeMode.anyone [] [] true).1.headD
      { name := "", can_review := false }).name ∉
    ((assign_reviewers
      [{ name := "Alice", can_review := true }, { name := "Bob", can_review := true }]
      {} 1 false KnowledgeMode.anyone [] [] true).1.headD
      { name := "", can_review := false }).reviewers :=
  C6_no_self_review
    [{ name := "Alice", can_review := true }, { name := "Bob", can_review := true }]
    {} 1 false KnowledgeMode.anyone [] [] true _ (by decide)

theorem C9_greedy_loop_terminates_witness :
    greedy_assign 1 6
      [{ dev := { name := "Alice", can_review := true },
         reviewer := { name := "Bob", can_review := true },
         team_match := 0, knowledge_diff := 0, pair_count := 0 }]
      [] (fun _ => 0) =
    greedy_assign 1 1
      [{ dev := { name := "Alice", can_review := true },
         reviewer := { name := "Bob", can_review := true },
         team_match := 0, knowledge_diff := 0, pair_count := 0 }]
      [] (fun _ => 0) :=
  C9_greedy_loop_terminates 1
    [{ dev := { name := "Alice", can_review := true },
       reviewer := { name := "Bob", can_review := true },
       team_match := 0, knowledge_diff := 0, pair_count := 0 }]
    [] (fun _ => 0) 6 (by decide)

end PrPairing
